import Mathlib

/-!
# Verification of the `hapi-doc-test` planner and runtime (`src/hapi.js`)

This file embeds, as executable Lean definitions, the parts of `src/hapi.js`
that the checked properties are about:

* variable-reference scanning and fixed-point substitution
  (`getMatches`, `normalizeVar`, `resolveStr`, `resolve2`, `resolve`);
* the insertability test (`Hapi.prototype.isInsertableApi`);
* the planner (`Node.prototype.insertApi`, `addChild`, `getUndefinedVars`,
  `usesApi`, `producesVar`, `Hapi.prototype.getApiProducers`);
* the nine-stage execution waterfall of `RunContext.prototype.doRun`;
* the per-key serialization queue of `RunContext.prototype.doRun`;
* the `quit`-list test of `RunContext.prototype.runHook2`;
* `var_new` scanning (`Api.prototype.scanActions`, the `var_new` case);
* `Hapi.prototype.gendoc`'s result code computation;
* `getVarCombinations` / `getVarCombinationsRecurse` and the aliasing of
  `api.consumes` in `RunContext.prototype.run`.

JavaScript strings are modelled through their character lists; the helper
array extensions (`addUniq`, `addAllUniq`, `pullAll`, `dup`) whose source
file (`extensions.js`) is not part of the sources are modelled from the
spec's description ("ordinary set/collection operations"): `dup` copies,
`addUniq` appends when absent, `addAllUniq` folds `addUniq`, `pullAll`
removes all occurrences of the given elements.
-/

namespace Hapi

/-- JS word character, as matched by `\w` in the regex
`/\$\x7b(\w*)\x7d|\$(\w*)/g` of `getMatches` (hapi.js line 2330):
ASCII letters, digits and underscore. -/
def isWordChar (c : Char) : Bool :=
  ('a' ≤ c && c ≤ 'z') || ('A' ≤ c && c ≤ 'Z') || ('0' ≤ c && c ≤ '9') || c = '_'

/-- Longest prefix of word characters together with the rest of the input;
used for the `(\w*)` groups of the `getMatches` regex. -/
def takeWord : List Char → List Char × List Char
  | [] => ([], [])
  | c :: cs =>
    if isWordChar c then
      let (w, r) := takeWord cs
      (c :: w, r)
    else ([], c :: cs)

/-- Scan for the matches of the regex of `getMatches` over a character
list, returning each matched substring in order, as JS `String.match` with
the `g` flag does.  At a `$` the braced alternative is preferred (the
regex tries it first); if there is no well-formed closing brace the second
alternative matches `$` followed by the longest word run.  Every step
consumes at least one character, so the recursion is driven by a character
budget that `getMatchesList` seeds with one more than the input's length;
the zero-budget case is unreachable from the wrapper. -/
def getMatchesListF : Nat → List Char → List (List Char)
  | 0, _ => []
  | _ + 1, [] => []
  | fuel + 1, '$' :: rest =>
    match rest with
    | '{' :: rest2 =>
      match takeWord rest2 with
      | (w, '}' :: r2) => ('$' :: '{' :: (w ++ ['}'])) :: getMatchesListF fuel r2
      | (_, _) =>
        -- first alternative fails; the unbraced alternative matches just
        -- `$` here since the next character `{` is not a word character
        ['$'] :: getMatchesListF fuel ('{' :: rest2)
    | other =>
      match takeWord other with
      | (w, r) => ('$' :: w) :: getMatchesListF fuel r
  | fuel + 1, _ :: rest => getMatchesListF fuel rest

/-- The matches of the `getMatches` regex over a character list. -/
def getMatchesList (l : List Char) : List (List Char) :=
  getMatchesListF (l.length + 1) l

def getMatches (s : String) : List String :=
  (getMatchesList s.data).map String.mk

/-- The function `normalizeVar` (hapi.js lines 2333-2341): strip the `$` / `$\x7b...\x7d`
decoration from a matched variable reference. -/
def normalizeVar (s : String) : String :=
  match s.data with
  | '$' :: '{' :: rest => String.mk (rest.dropLast)
  | '$' :: rest => String.mk rest
  | l => String.mk l

end Hapi

namespace Hapi

/-- The function `isInsertableApi` of the `Hapi` prototype (hapi.js lines 293-302): walk the
registered referenced-API names and return `false` as soon as the API's
name starts with one of them, `true` when none matches.
`name.startsWith(refs[i])` is modelled on the character lists. -/
def isInsertableApi (refs : List String) (name : String) : Bool :=
  match refs with
  | [] => true
  | r :: rs => if r.data.isPrefixOf name.data then false else isInsertableApi rs name

/-- The insertability test as the spec sentence words it ("an API is
insertable iff its name is not a prefix of any referenced API name"); kept
separate from `isInsertableApi` so that the two can be compared. -/
def isInsertableApiSpec (refs : List String) (name : String) : Bool :=
  refs.all fun r => ¬ name.data.isPrefixOf r.data

/-- The array extension `addUniq`.  Modelled from the spec: `extensions.js` is
not among the sources; §9 describes the extensions as ordinary set
operations.  Appends an element unless already present. -/
def addUniq (l : List String) (x : String) : List String :=
  if x ∈ l then l else l ++ [x]

/-- The array extension `addAllUniq`: `addUniq` folded over the added list.
Modelled from the spec (see `addUniq`). -/
def addAllUniq (l : List String) (xs : List String) : List String :=
  xs.foldl addUniq l

/-- The array extension `pullAll` (lodash `pullAll` semantics): remove every
occurrence of each of `xs` from `l`, keeping the order of the survivors.
Modelled from the spec (see `addUniq`). -/
def pullAll (l : List String) (xs : List String) : List String :=
  l.filter fun v => v ∉ xs

/-- A JSON-like value, the data the runtime substitutes variables into.
Environment values are kept as strings (the spec: a reference is "replaced
by the textual form of the environment value"). -/
inductive JVal where
  | str (s : String)
  | num (n : Int)
  | bool (b : Bool)
  | null
  | arr (l : List JVal)
  | obj (l : List (String × JVal))
deriving Repr

mutual

/-- Structural decidable equality for `JVal` (the shape `lodash.isEqual`
tests, with object fields in order). -/
def JVal.decEq : (a b : JVal) → Decidable (a = b)
  | .str a, .str b =>
    if h : a = b then isTrue (by rw [h]) else isFalse fun hh => h (by cases hh; rfl)
  | .num a, .num b =>
    if h : a = b then isTrue (by rw [h]) else isFalse fun hh => h (by cases hh; rfl)
  | .bool a, .bool b =>
    if h : a = b then isTrue (by rw [h]) else isFalse fun hh => h (by cases hh; rfl)
  | .null, .null => isTrue rfl
  | .arr a, .arr b =>
    match JVal.decEqList a b with
    | isTrue h => isTrue (by rw [h])
    | isFalse h => isFalse fun hh => h (by cases hh; rfl)
  | .obj a, .obj b =>
    match JVal.decEqObj a b with
    | isTrue h => isTrue (by rw [h])
    | isFalse h => isFalse fun hh => h (by cases hh; rfl)
  | .str _, .num _ => isFalse fun h => JVal.noConfusion h
  | .str _, .bool _ => isFalse fun h => JVal.noConfusion h
  | .str _, .null => isFalse fun h => JVal.noConfusion h
  | .str _, .arr _ => isFalse fun h => JVal.noConfusion h
  | .str _, .obj _ => isFalse fun h => JVal.noConfusion h
  | .num _, .str _ => isFalse fun h => JVal.noConfusion h
  | .num _, .bool _ => isFalse fun h => JVal.noConfusion h
  | .num _, .null => isFalse fun h => JVal.noConfusion h
  | .num _, .arr _ => isFalse fun h => JVal.noConfusion h
  | .num _, .obj _ => isFalse fun h => JVal.noConfusion h
  | .bool _, .str _ => isFalse fun h => JVal.noConfusion h
  | .bool _, .num _ => isFalse fun h => JVal.noConfusion h
  | .bool _, .null => isFalse fun h => JVal.noConfusion h
  | .bool _, .arr _ => isFalse fun h => JVal.noConfusion h
  | .bool _, .obj _ => isFalse fun h => JVal.noConfusion h
  | .null, .str _ => isFalse fun h => JVal.noConfusion h
  | .null, .num _ => isFalse fun h => JVal.noConfusion h
  | .null, .bool _ => isFalse fun h => JVal.noConfusion h
  | .null, .arr _ => isFalse fun h => JVal.noConfusion h
  | .null, .obj _ => isFalse fun h => JVal.noConfusion h
  | .arr _, .str _ => isFalse fun h => JVal.noConfusion h
  | .arr _, .num _ => isFalse fun h => JVal.noConfusion h
  | .arr _, .bool _ => isFalse fun h => JVal.noConfusion h
  | .arr _, .null => isFalse fun h => JVal.noConfusion h
  | .arr _, .obj _ => isFalse fun h => JVal.noConfusion h
  | .obj _, .str _ => isFalse fun h => JVal.noConfusion h
  | .obj _, .num _ => isFalse fun h => JVal.noConfusion h
  | .obj _, .bool _ => isFalse fun h => JVal.noConfusion h
  | .obj _, .null => isFalse fun h => JVal.noConfusion h
  | .obj _, .arr _ => isFalse fun h => JVal.noConfusion h
termination_by structural a _ => a

/-- Decidable equality for lists of `JVal`. -/
def JVal.decEqList : (a b : List JVal) → Decidable (a = b)
  | [], [] => isTrue rfl
  | [], _ :: _ => isFalse fun h => List.noConfusion h
  | _ :: _, [] => isFalse fun h => List.noConfusion h
  | a :: as, b :: bs =>
    match JVal.decEq a b with
    | isFalse h1 => isFalse fun h => h1 (by cases h; rfl)
    | isTrue h1 =>
      match JVal.decEqList as bs with
      | isTrue h2 => isTrue (by rw [h1, h2])
      | isFalse h2 => isFalse fun h => h2 (by cases h; rfl)
termination_by structural a _ => a

/-- Decidable equality for object field lists. -/
def JVal.decEqObj : (a b : List (String × JVal)) → Decidable (a = b)
  | [], [] => isTrue rfl
  | [], _ :: _ => isFalse fun h => List.noConfusion h
  | _ :: _, [] => isFalse fun h => List.noConfusion h
  | (k1, v1) :: as, (k2, v2) :: bs =>
    if h0 : k1 = k2 then
      match JVal.decEq v1 v2 with
      | isFalse h1 => isFalse fun h => h1 (by cases h; rfl)
      | isTrue h1 =>
        match JVal.decEqObj as bs with
        | isTrue h2 => isTrue (by rw [h0, h1, h2])
        | isFalse h2 => isFalse fun h => h2 (by cases h; rfl)
    else isFalse fun h => h0 (by cases h; rfl)
termination_by structural a _ => a

end

instance : DecidableEq JVal := JVal.decEq

instance {ε α : Type} [DecidableEq ε] [DecidableEq α] : DecidableEq (Except ε α) :=
  fun a b =>
    match a, b with
    | .ok x, .ok y =>
      if h : x = y then isTrue (by rw [h]) else isFalse fun hh => h (by cases hh; rfl)
    | .error x, .error y =>
      if h : x = y then isTrue (by rw [h]) else isFalse fun hh => h (by cases hh; rfl)
    | .ok _, .error _ => isFalse fun h => Except.noConfusion h
    | .error _, .ok _ => isFalse fun h => Except.noConfusion h

/-- A variable environment: name to current (textual) value.  JS object
lookup `vars[name]` with the `=== undefined` test becomes `List.lookup`. -/
abbrev Env := List (String × String)

/-- First-occurrence replacement, as JS `str.replace(pat, rep)` with string
arguments (the `$`-pattern interpretation JS applies inside `rep` is not
modelled; no checked property depends on the replaced text's exact shape). -/
def replaceFirstList (pat rep : List Char) (s : List Char) : List Char :=
  if pat.isPrefixOf s then rep ++ s.drop pat.length
  else
    match s with
    | [] => []
    | c :: cs => c :: replaceFirstList pat rep cs

/-- JS `str.replace(pat, rep)` on strings (first occurrence only). -/
def replaceFirst (s pat rep : String) : String :=
  String.mk (replaceFirstList pat.data rep.data s.data)

/-- The loop body of `resolveStr` (hapi.js lines 2146-2155) specialised to
the resolver of `resolve2` (lines 2121-2125): walk the match list computed
from the original string; an undefined variable is an error; otherwise
replace the first occurrence of the matched text by the value. -/
def resolveStrGo (vars : Env) : List String → String → Except String String
  | [], str => .ok str
  | m :: ms, str =>
    match vars.lookup (normalizeVar m) with
    | none => .error ("variable '" ++ normalizeVar m ++ "' is not defined")
    | some v => resolveStrGo vars ms (replaceFirst str m v)

/-- The function `resolveStr` (hapi.js lines 2146-2155) with `resolve2`'s resolver. -/
def resolveStr (s : String) (vars : Env) : Except String String :=
  resolveStrGo vars (getMatches s) s

mutual

/-- The function `resolve2` (hapi.js lines 2118-2144): one substitution pass over a JSON
tree.  The JS falsiness guard `if (!toResolve || !vars) return toResolve`
returns the empty string (and numbers `0`, `false`, `null`) unchanged;
non-string scalars are unchanged anyway.  Object keys and values are both
resolved (a duplicate resolved key overwrites in JS; the list model keeps
both pairs, which no checked property observes). -/
def resolve2 (vars : Env) : JVal → Except String JVal
  | .str s =>
    if s = "" then .ok (.str s)
    else
      match resolveStr s vars with
      | .ok t => .ok (.str t)
      | .error e => .error e
  | .num n => .ok (.num n)
  | .bool b => .ok (.bool b)
  | .null => .ok .null
  | .arr l =>
    match resolve2List vars l with
    | .ok l' => .ok (.arr l')
    | .error e => .error e
  | .obj l =>
    match resolve2Obj vars l with
    | .ok l' => .ok (.obj l')
    | .error e => .error e
termination_by structural v => v

/-- The array branch of `resolve2`. -/
def resolve2List (vars : Env) : List JVal → Except String (List JVal)
  | [] => .ok []
  | v :: vs =>
    match resolve2 vars v with
    | .error e => .error e
    | .ok v' =>
      match resolve2List vars vs with
      | .error e => .error e
      | .ok vs' => .ok (v' :: vs')
termination_by structural l => l

/-- The object branch of `resolve2`: `key = resolve2(key); val = resolve2(val)`. -/
def resolve2Obj (vars : Env) : List (String × JVal) → Except String (List (String × JVal))
  | [] => .ok []
  | (k, v) :: rest =>
    match (if k = "" then .ok k else resolveStr k vars : Except String String) with
    | .error e => .error e
    | .ok k' =>
      match resolve2 vars v with
      | .error e => .error e
      | .ok v' =>
        match resolve2Obj vars rest with
        | .error e => .error e
        | .ok rest' => .ok ((k', v') :: rest')
termination_by structural l => l

end

/-- The `for (var count = 1; count < 50; count++)` loop of `resolve`
(hapi.js lines 2110-2115): `n` remaining iterations; stop when a pass
leaves the value unchanged, error when the bound is exhausted. -/
def resolveLoop (vars : Env) : Nat → JVal → Except String JVal
  | 0, val1 => .error "unable to fully resolve variables"
  | n + 1, val1 =>
    match resolve2 vars val1 with
    | .error e => .error e
    | .ok val2 => if val2 = val1 then .ok val1 else resolveLoop vars n val2

/-- The function `resolve` (hapi.js lines 2108-2116): an initial pass, then up to 49
further passes looking for a fixed point. -/
def resolve (toResolve : JVal) (vars : Env) : Except String JVal :=
  match resolve2 vars toResolve with
  | .error e => .error e
  | .ok val1 => resolveLoop vars 49 val1

/-- Runs `k` successive `resolve2` passes starting from `toResolve`, used to
state the 50-pass bound of `resolve`. -/
def resolveIter (toResolve : JVal) (vars : Env) : Nat → Except String JVal
  | 0 => .ok toResolve
  | n + 1 =>
    match resolveIter toResolve vars n with
    | .error e => .error e
    | .ok v => resolve2 vars v

mutual

/-- The function `scanForVars` (hapi.js lines 1809-1825): collect (`addUniq`) the
normalized variable names of every string in a JSON tree; object keys are
not scanned (`forAll` passes values only); the falsy guard skips `""`,
`0`, `false` and `null`, none of which holds variable references. -/
def scanForVars : JVal → List String → List String
  | .str s, acc => (getMatches s).foldl (fun a m => addUniq a (normalizeVar m)) acc
  | .arr l, acc => scanForVarsList l acc
  | .obj l, acc => scanForVarsObj l acc
  | _, acc => acc
termination_by structural v _ => v

/-- The array branch of `scanForVars`. -/
def scanForVarsList : List JVal → List String → List String
  | [], acc => acc
  | v :: vs, acc => scanForVarsList vs (scanForVars v acc)
termination_by structural l _ => l

/-- The object branch of `scanForVars` (values only). -/
def scanForVarsObj : List (String × JVal) → List String → List String
  | [], acc => acc
  | (_, v) :: rest, acc => scanForVarsObj rest (scanForVars v acc)
termination_by structural l _ => l

end

/-- The function `getVarNames` (hapi.js lines 1802-1806): the variable names textually
present in a JSON value; an absent value (`undefined` body) yields `[]`. -/
def getVarNames : Option JVal → List String
  | none => []
  | some v => scanForVars v []

/-- A runtime variable environment for combination expansion: values may be
arrays (enumerations) that the planner/runtime fans out over. -/
abbrev CEnv := List (String × JVal)

/-- JS `newVars[name] = val` when `name` is a key of `vars`: replace the
value in place. -/
def setVar (vars : CEnv) (name : String) (v : JVal) : CEnv :=
  vars.map fun p => if p.1 = name then (p.1, v) else p

/-- The function `getVarCombinationsRecurse` (hapi.js lines 2081-2099).  The JS function
destructively consumes the `names` array with `shift()` until it is empty
(or a falsy — empty-string — name is shifted); the pair returned here is
(the combinations, the final contents of the caller's `names` array), which
makes that mutation observable to the caller. -/
def getVarCombinationsRecurse (varsArray : List CEnv) (names : List String) :
    List CEnv × List String :=
  match names with
  | [] => (varsArray, [])
  | n :: rest =>
    if n = "" then (varsArray, rest)
    else
      let newVarsArray := varsArray.foldl
        (fun acc vars =>
          match vars.lookup n with
          | some (.arr l) => acc ++ l.map fun v => setVar vars n v
          | _ => acc ++ [vars])
        []
      getVarCombinationsRecurse newVarsArray rest

/-- The function `getVarCombinations` (hapi.js lines 2069-2079): seed with the single
environment and recurse; the second component is again the final state of
the `names` array passed in by reference. -/
def getVarCombinations (vars : CEnv) (names : List String) : List CEnv × List String :=
  getVarCombinationsRecurse [vars] names

/-- The slice of a concrete `Api` object that `RunContext.prototype.run`
reads: its name and its (shared, mutable) `consumes` array. -/
structure RApi where
  name : String
  consumes : List String
deriving Repr, DecidableEq

/-- The combination-expansion step of `RunContext.prototype.run` (hapi.js
lines 1101-1127): `getVarCombinations(self.vars, self.api.consumes)` is
called with the node's `Api.consumes` array *by reference*, so the
`shift()`-driven recursion empties it; the returned `RApi` carries the
post-call contents of that array.  A zero-length combination list throws. -/
def runVarCombinations (vars : CEnv) (api : RApi) :
    Except String (List CEnv) × RApi :=
  let res := getVarCombinations vars api.consumes
  (if res.1 = [] then .error ("no var combinations for api " ++ api.name)
   else .ok res.1,
   { api with consumes := res.2 })

/-- JS `Array.prototype.indexOf`: first index of `x`, `-1` when absent. -/
def jsIndexOf (l : List Int) (x : Int) : Int :=
  match l.findIdx? (· = x) with
  | some i => (i : Int)
  | none => -1

/-- Outcome of a string-named hook (one that runs another API as a subtree)
within a hook chain. -/
inductive StringHookResult where
  | passed      -- the sub-API run succeeded; the chain continues
  | quitChain   -- the run failed but the chain is silently terminated
  | failed      -- the run failed and the error is propagated
deriving Repr, DecidableEq

/-- The hook-as-API branch of `RunContext.prototype.runHook2` (hapi.js
lines 1203-1218): on a failed sub-run the code executes
`if (hook.quit.indexOf(runCtx.statusCode)) ctx.setBreak(true); else return cb(err);`
— the raw `indexOf` result is used as the condition, so any non-zero value
(including `-1`) counts as true. -/
def runStringHook (quit : List Int) (subRunFailed : Bool) (statusCode : Int) :
    StringHookResult :=
  if subRunFailed then
    if jsIndexOf quit statusCode ≠ 0 then .quitChain else .failed
  else .passed

/-- The default `quit` list of `runHook2` (hapi.js lines 1200-1202):
`[404]` for every hook but the last of a chain, `[]` for the last. -/
def hookQuitDefault (ignore : Bool) : List Int :=
  if ignore then [404] else []

/-- What one virtual host contributes to `Hapi.prototype.gendoc`:
the errors `vhost.gendoc` pushes into `hapi.errors` without throwing
(per-API `addDoc` failures), and the error thrown out of `vhost.gendoc`
or `writeFileSync`, if any. -/
structure VHostDoc where
  pushedErrors : List String
  thrown : Option String
deriving Repr, DecidableEq

/-- The function `gendoc` of the `Hapi` prototype (hapi.js lines 193-216): start from the errors
already recorded, walk the virtual hosts — a throw records a formatted
error and sets the result to `2` — and finally force the result to `3`
whenever the error list is non-empty.  Returns (result, final errors). -/
def gendoc (initialErrors : List String) (vhosts : List VHostDoc) :
    Nat × List String :=
  let folded := vhosts.foldl gendocStep (0, initialErrors)
  if folded.2.length > 0 then (3, folded.2) else folded
where
  /-- The per-virtual-host body of the `gendoc` loop (hapi.js lines
  198-210): append the errors that `vhost.gendoc` pushed; a throw appends
  a formatted error and sets the result to `2`. -/
  gendocStep (acc : Nat × List String) (v : VHostDoc) : Nat × List String :=
    let errs := acc.2 ++ v.pushedErrors
    match v.thrown with
    | none => (acc.1, errs)
    | some e => (2, errs ++ ["failure generating virtual host documentation: " ++ e])

/-- The `var_new` link of an action (hapi.js `var_new` object): variable
name, getter and destructor API names, optional extraction path, optional
explicit `serial_vars`.  The `name`/`get`/`delete` presence checks of
`actionCheck` are carried by the types. -/
structure VarNew where
  name : String
  get : String
  delete : String
  path : Option String
  serialVars : Option (List String)
deriving Repr, DecidableEq

/-- The `Api` fields that the `var_new` branch of `scanActions` updates. -/
structure ScanState where
  varNew : Option VarNew
  produces : List String
  referencedApis : List String
  serialVars : Option (List String)
deriving Repr, DecidableEq

/-- JS falsiness of a scan path (`!path || path.length === 0`): absent or
empty. -/
def pathFalsy : Option String → Bool
  | none => true
  | some p => p = ""

/-- The `var_new` case of `Api.prototype.scanActions` (hapi.js lines
740-765): at most one `var_new` per API; the extraction path defaults to
the scan path (error when there is none); the produced name and the
getter/destructor references are recorded; `serial_vars` comes from the
explicit field, else defaults to `requestBodyVars` (the names
`getVarNames` found in the request body — `none` models the field being
`undefined`), else is an error. -/
def scanVarNew (apiName : String) (requestBodyVars : Option (List String))
    (st : ScanState) (vn : VarNew) (path : Option String) :
    Except String ScanState :=
  if st.varNew.isSome then
    .error (apiName ++ " contains multiple 'var_new' are not allowed in a single HTTP API")
  else
    match (if pathFalsy vn.path then
             (if pathFalsy path then
                .error (apiName ++ " contains 'var_new' without a path")
              else .ok { vn with path := path })
           else .ok vn : Except String VarNew) with
    | .error e => .error e
    | .ok vn' =>
      let produces' := st.produces ++ [vn'.name]
      let refs' := addUniq (addUniq st.referencedApis vn'.get) vn'.delete
      match (match vn'.serialVars with
             | some sv => .ok sv
             | none =>
               match requestBodyVars with
               | some rbv => .ok rbv
               | none => .error ("var_new for " ++ apiName ++ " needs a 'serial_vars' field")
             : Except String (List String)) with
      | .error e => .error e
      | .ok sv =>
        .ok { varNew := some vn', produces := produces',
              referencedApis := refs', serialVars := some sv }

/-- The outcomes fed into one execution of the nine-stage waterfall of
`RunContext.prototype.doRun`: for each stage, `none` means the stage (when
it runs) reports no error and `some e` that it reports `e`; `hasPreRun` /
`hasPostRun` say whether the node carries those satellite subtrees. -/
structure WfHooks where
  hasPreRun : Bool
  preRun : Option String
  onBeforeRun : Option String
  before : Option String
  main : Option String
  afterApi : Option String
  children : Option String
  afterAll : Option String
  onAfterRun : Option String
  hasPostRun : Bool
  postRun : Option String
deriving Repr, DecidableEq

/-- Which stages of one waterfall execution actually ran (entered their
stage body past the `state` guard). -/
structure WfRan where
  preRun : Bool
  onBeforeRun : Bool
  before : Bool
  main : Bool
  afterApi : Bool
  children : Bool
  afterAll : Bool
  onAfterRun : Bool
  postRun : Bool
deriving Repr, DecidableEq

/-- The waterfall's progress state and remembered first error. -/
structure WfState where
  state : Nat
  cbErr : Option String
deriving Repr, DecidableEq

/-- One waterfall stage (hapi.js lines 1267-1352): skip when `state` is
below the guard; otherwise on success advance `state` to `target` (when the
stage has one) and on error remember it if it is the first
(`if (!cbErr) cbErr = err`). -/
def wfStage (guard : Nat) (target : Option Nat) (outcome : Option String)
    (st : WfState) : WfState × Bool :=
  if st.state < guard then (st, false)
  else
    match outcome with
    | none => ({ st with state := target.getD st.state }, true)
    | some e =>
      ({ st with cbErr := match st.cbErr with | some e0 => some e0 | none => some e }, true)

/-- The nine-stage waterfall of `RunContext.prototype.doRun` (hapi.js lines
1262-1371), with the stage guards and state targets exactly as in the
source: preRun (`state` 1), onBeforeRun (guard 1, `state` 2), before
(guard 2, `state` 3), main (guard 3, `state` 4), afterApi (guard 4,
`state` 5), children (guard 5, `state` 6), afterAll (guard 5), onAfterRun
(guard 2), postRun (present and guard 3).  The final callback receives
`cbErr`. -/
def doRunWaterfall (h : WfHooks) : WfRan × Option String :=
  let st0 : WfState := ⟨0, none⟩
  let r1 := if h.hasPreRun then wfStage 0 (some 1) h.preRun st0 else (⟨1, none⟩, false)
  let r2 := wfStage 1 (some 2) h.onBeforeRun r1.1
  let r3 := wfStage 2 (some 3) h.before r2.1
  let r4 := wfStage 3 (some 4) h.main r3.1
  let r5 := wfStage 4 (some 5) h.afterApi r4.1
  let r6 := wfStage 5 (some 6) h.children r5.1
  let r7 := wfStage 5 none h.afterAll r6.1
  let r8 := wfStage 2 none h.onAfterRun r7.1
  let r9 := if h.hasPostRun then wfStage 3 none h.postRun r8.1 else (r8.1, false)
  (⟨r1.2, r2.2, r3.2, r4.2, r5.2, r6.2, r7.2, r8.2, r9.2⟩, r9.1.cbErr)

/-- The first error among the stages that ran, in waterfall order. -/
def wfFirstErr (h : WfHooks) (r : WfRan) : Option String :=
  (List.filterMap id
    [if r.preRun then h.preRun else none,
     if r.onBeforeRun then h.onBeforeRun else none,
     if r.before then h.before else none,
     if r.main then h.main else none,
     if r.afterApi then h.afterApi else none,
     if r.children then h.children else none,
     if r.afterAll then h.afterAll else none,
     if r.onAfterRun then h.onAfterRun else none,
     if r.postRun then h.postRun else none]).head?

/-- An external event for the serialization-queue model: a run context with
this queue key reaches `doRun` (arrive), or finishes its waterfall
(complete).  Contexts are identified by numbers. -/
inductive QEv where
  | arrive (c : Nat)
  | complete (c : Nat)
deriving Repr, DecidableEq

/-- An entry of the observable action log: a context was appended to the
queue, began its waterfall (its main request may now be dispatched), or
finished its waterfall through postRun. -/
inductive QAct where
  | arrive (c : Nat)
  | start (c : Nat)
  | complete (c : Nat)
deriving Repr, DecidableEq

/-- The state of one serialization queue (`hapi.serialQueues[queueName]`)
together with the append-only log of observable actions.  `owners` records
the contexts whose running invocation entered `doRun` through the enqueue
arm (`queueName && !proceed`, hapi.js line 1247) and therefore holds the
local `queue` variable: exactly those that arrived into an empty queue and
started at once.  A waiter is re-invoked as `doRun(ele.cb, true)` (line
1363), so the invocation that runs its waterfall leaves `queue`
undefined. -/
structure QState where
  queue : List Nat
  owners : List Nat
  acts : List QAct
deriving Repr, DecidableEq

/-- One step of the serialization protocol of `RunContext.prototype.doRun`
for a fixed queue key.  Arrival (hapi.js lines 1247-1261): push self; run
now iff the queue was empty (length 1 after the push) — then this
invocation owns the queue reference — else suspend.  Completion (lines
1353-1366): only a completing context whose invocation holds the `queue`
local (`if (queue)`) shifts itself — the code asserts the head is the
completing context — and, when a waiter remains, resumes the new head;
a context that was resumed with `proceed = true` skips the whole block,
popping nothing and resuming nobody.  A context arrives at most once
(each `RunContext` enqueues itself once); only a running context — one
started and not yet completed — can complete, and an owner completing
when it is not the head would throw (`ele.ctx !== self`), modelled as
rejection. -/
def qStep (s : QState) : QEv → Option QState
  | .arrive c =>
    if QAct.arrive c ∈ s.acts then none
    else if (s.queue ++ [c]).length == 1 then
      some ⟨s.queue ++ [c], s.owners ++ [c], s.acts ++ [.arrive c, .start c]⟩
    else some ⟨s.queue ++ [c], s.owners, s.acts ++ [.arrive c]⟩
  | .complete c =>
    if QAct.start c ∈ s.acts ∧ QAct.complete c ∉ s.acts then
      if c ∈ s.owners then
        match s.queue with
        | [] => none
        | x :: rest =>
          if x = c then
            match rest with
            | [] => some ⟨rest, s.owners, s.acts ++ [.complete c]⟩
            | y :: _ => some ⟨rest, s.owners, s.acts ++ [.complete c, .start y]⟩
          else none
      else some ⟨s.queue, s.owners, s.acts ++ [.complete c]⟩
    else none

/-- Run the queue protocol over a list of events. -/
def qExec (s : QState) : List QEv → Option QState
  | [] => some s
  | e :: es =>
    match qStep s e with
    | none => none
    | some s' => qExec s' es

/-- A concrete API as the planner sees it: name, consumed / produced /
deleted variable names, the getter and destructor names of its `var_new`
link (if any), and the result of `api.getPredefinedVars()` (the variables
the environment pre-defines for it).  Equality of `PApi` values models JS
object identity (`node.api === api`); the corpus holds distinct objects. -/
structure PApi where
  name : String
  consumes : List String
  produces : List String
  deletes : List String
  varNew : Option (String × String)
  predefined : List String
deriving Repr, DecidableEq

/-- The planner-relevant state of the `Hapi` object: the corpus
(`hapi.apis`) and the referenced-API names (`hapi.referencedApis`). -/
structure Corpus where
  apis : List PApi
  referencedApis : List String
deriving Repr

/-- A test-tree node (the `Node` prototype): its API (`null` at the root),
its ordered children, its cached `subTreeProduces` array, the API of its
`postRun` satellite (consulted by `addChild`), and the transient
`inserting` map (the set of names currently flagged `true`).  The `preRun`
and `postRun` satellite subtrees themselves are not stored: no checked
property reads them, but their construction effects on `subTreeProduces`
and their `findApi` failures are modelled in `addChild`. -/
inductive PNode where
  | mk (api : Option PApi) (children : List PNode) (subTree : List String)
       (postRunApi : Option PApi) (inserting : List String)
deriving Repr

/-- The API of a node. -/
def PNode.api : PNode → Option PApi
  | .mk a _ _ _ _ => a

/-- The children of a node. -/
def PNode.children : PNode → List PNode
  | .mk _ c _ _ _ => c

/-- The cached `subTreeProduces` of a node. -/
def PNode.subTree : PNode → List String
  | .mk _ _ s _ _ => s

/-- The API of the node's `postRun` satellite. -/
def PNode.postRunApi : PNode → Option PApi
  | .mk _ _ _ p _ => p

/-- The names currently flagged in the node's `inserting` map. -/
def PNode.inserting : PNode → List String
  | .mk _ _ _ _ i => i

/-- The node's API as a list (empty at the root). -/
def PNode.apiList (n : PNode) : List PApi :=
  n.api.toList

/-- Flag a name in the `inserting` map (`self.inserting[api.name] = true`). -/
def PNode.setInserting (n : PNode) (name : String) : PNode :=
  match n with
  | .mk a c s p i => .mk a c s p (if name ∈ i then i else name :: i)

/-- Unflag a name in the `inserting` map (`self.inserting[api.name] = false`). -/
def PNode.clearInserting (n : PNode) (name : String) : PNode :=
  match n with
  | .mk a c s p i => .mk a c s p (i.filter (· ≠ name))

/-- Replace the children list of a node. -/
def PNode.withChildren (n : PNode) (cs : List PNode) : PNode :=
  match n with
  | .mk a _ s p i => .mk a cs s p i

/-- Add names to the node's cached `subTreeProduces` (`addAllUniq`). -/
def PNode.addSubTree (n : PNode) (d : List String) : PNode :=
  match n with
  | .mk a c s p i => .mk a c (addAllUniq s d) p i

/-- The function `findApi` of the `Hapi` prototype (hapi.js lines 279-291):
look a referenced API up by name in the corpus; a missing name throws. -/
def findApi (corpus : Corpus) (name : String) : Except String PApi :=
  match corpus.apis.find? (fun api => api.name = name) with
  | some api => .ok api
  | none => .error ("findAPI: '" ++ name ++ "' was NOT found")

/-- The function `getApiProducers` (hapi.js lines 312-322): every API of
the corpus whose `produces` includes the variable, in corpus order. -/
def getApiProducers (corpus : Corpus) (varName : String) : List PApi :=
  corpus.apis.filter fun api => varName ∈ api.produces

/-- The function `getUndefinedVars` of the `Node` prototype (hapi.js lines
971-981): start from a copy of `api.consumes` and pull out everything
produced by the node or one of its ancestors (`chain` is the list of those
APIs) and everything the environment pre-defines; the order of the
survivors follows `consumes`. -/
def getUndefinedVars (chain : List PApi) (api : PApi) : List String :=
  api.consumes.filter fun v =>
    chain.all (fun a => ¬ v ∈ a.produces) && ¬ v ∈ api.predefined

/-- The function `producesVar` of the `Node` prototype (hapi.js lines
963-969): does the node's subtree produce one of the names? -/
def producesVar (n : PNode) (varNames : List String) : Bool :=
  varNames.any fun v => v ∈ n.subTree

mutual

/-- The function `insertApi` of the `Node` prototype (hapi.js lines
895-950), embedded functionally with a recursion bound (`fuel`); the JS
recursion is unbounded and an exhausted bound is modelled as an error.
`ancs` lists the APIs of the node's strict ancestors, root first excluded;
the second component of a successful result is the list of names the call
adds (`addAllUniq`) to the `subTreeProduces` of every strict ancestor —
the upward propagation loops of `addChild`. -/
def insertApi : Nat → Corpus → List PApi → PNode → PApi → Except String (PNode × List String)
  | 0, _, _, _, _ => .error "insertApi: recursion bound exhausted"
  | fuel + 1, corpus, ancs, self, api =>
    -- re-entrancy guard (lines 899-905)
    if api.name ∈ self.inserting then .ok (self, [])
    else
      let self1 := self.setInserting api.name
      -- referenced APIs are not insertable (lines 907-912)
      if ¬ isInsertableApi corpus.referencedApis api.name then .ok (self1, [])
      else
        let chain := self1.apiList ++ ancs
        -- already inserted further up the tree (lines 914-917)
        if api ∈ chain then .ok (self1, [])
        else
          match getUndefinedVars chain api with
          -- no undefined variables: append here (lines 919-926)
          | [] => addChild fuel corpus self1 api
          | varName :: undefRest =>
            -- recurse into children producing a needed variable (lines 928-937)
            match insertChildren fuel corpus chain (varName :: undefRest) api self1.children with
            | .error e => .error e
            | .ok (children', delta, found) =>
              let self2 := (self1.withChildren children').addSubTree delta
              if found then .ok (self2, delta)
              else
                -- seed producers of the first undefined variable (lines 939-949)
                match getApiProducers corpus varName with
                | [] => .error ("There are no producers of the '" ++ varName ++ "' variable")
                | p :: ps =>
                  match insertProducers fuel corpus ancs self2 (p :: ps) with
                  | .error e => .error e
                  | .ok (self3, delta2) =>
                    let self4 := self3.clearInserting api.name
                    match insertApi fuel corpus ancs self4 api with
                    | .error e => .error e
                    | .ok (self5, delta3) => .ok (self5, delta ++ delta2 ++ delta3)
termination_by structural fuel _ _ _ _ => fuel

/-- The child loop of `insertApi` (hapi.js lines 929-937): recurse into
every child whose subtree produces one of the undefined variables;
returns the updated children, the accumulated upward `subTreeProduces`
delta and whether any child was entered. -/
def insertChildren : Nat → Corpus → List PApi → List String → PApi → List PNode →
    Except String (List PNode × List String × Bool)
  | 0, _, _, _, _, _ => .error "insertChildren: recursion bound exhausted"
  | _ + 1, _, _, _, _, [] => .ok ([], [], false)
  | fuel + 1, corpus, chain, undef, api, child :: rest =>
    if producesVar child undef then
      match insertApi fuel corpus chain child api with
      | .error e => .error e
      | .ok (child', delta1) =>
        match insertChildren fuel corpus chain undef api rest with
        | .error e => .error e
        | .ok (rest', delta2, _) => .ok (child' :: rest', delta1 ++ delta2, true)
    else
      match insertChildren fuel corpus chain undef api rest with
      | .error e => .error e
      | .ok (rest', delta2, found2) => .ok (child :: rest', delta2, found2)
termination_by structural fuel _ _ _ _ _ => fuel

/-- The producer loop of `insertApi` (hapi.js lines 944-946): insert each
producer at this node in order. -/
def insertProducers : Nat → Corpus → List PApi → PNode → List PApi →
    Except String (PNode × List String)
  | 0, _, _, _, _ => .error "insertProducers: recursion bound exhausted"
  | _ + 1, _, _, self, [] => .ok (self, [])
  | fuel + 1, corpus, ancs, self, p :: ps =>
    match insertApi fuel corpus ancs self p with
    | .error e => .error e
    | .ok (self', d1) =>
      match insertProducers fuel corpus ancs self' ps with
      | .error e => .error e
      | .ok (self'', d2) => .ok (self'', d1 ++ d2)
termination_by structural fuel _ _ _ _ => fuel

/-- The function `addChild` of the `Node` prototype (hapi.js lines
983-1023).  An existing child with the same API, or a match with the
node's `postRun` API, appends nothing.  Otherwise a node is created for
the API; a `var_new` link resolves its getter and destructor (fatal when
missing), creates the `preRun` satellite with the destructor as its child
— whose own `addChild` run propagates the destructor's `subTreeProduces`
through this node and every ancestor — and records the destructor as
`postRun`.  The new child's `subTreeProduces` is then propagated to the
node and (via the returned delta) every ancestor. -/
def addChild : Nat → Corpus → PNode → PApi → Except String (PNode × List String)
  | 0, _, _, _ => .error "addChild: recursion bound exhausted"
  | fuel + 1, corpus, self, api =>
    if self.children.any (fun c => c.api = some api) then .ok (self, [])
    else if self.postRunApi = some api then .ok (self, [])
    else
      let base := addAllUniq [] api.produces
      match api.varNew with
      | none =>
        let node := PNode.mk (some api) [] base none []
        .ok ((self.withChildren (self.children ++ [node])).addSubTree base, base)
      | some (g, d) =>
        match findApi corpus g with
        | .error e => .error e
        | .ok getApi =>
          match findApi corpus d with
          | .error e => .error e
          | .ok deleteApi =>
            match addChild fuel corpus
                (PNode.mk (some getApi) [] (addAllUniq [] getApi.produces) none [])
                deleteApi with
            | .error e => .error e
            | .ok (_, delta1) =>
              let nodeSub := addAllUniq base delta1
              let node := PNode.mk (some api) [] nodeSub (some deleteApi) []
              .ok ((((self.addSubTree delta1).withChildren
                       (self.children ++ [node])).addSubTree nodeSub),
                   delta1 ++ nodeSub)
termination_by structural fuel _ _ _ => fuel

end

/-- The empty root node `new Node(this, null)` of `Hapi.prototype.compile`
(hapi.js line 243). -/
def rootNode : PNode :=
  PNode.mk none [] [] none []

/-- The insertion loop of `Hapi.prototype.compile` (hapi.js lines
243-252): insert every matched API into the tree rooted at the empty
root.  The JS loop catches and records per-API errors; a *successful*
compile is one that recorded none, which coincides with every insertion
succeeding here. -/
def compileTree (fuel : Nat) (corpus : Corpus) (apisToInsert : List PApi) :
    Except String PNode :=
  match apisToInsert with
  | [] => .ok rootNode
  | _ => compileTreeGo fuel corpus rootNode apisToInsert
where
  compileTreeGo (fuel : Nat) (corpus : Corpus) : PNode → List PApi → Except String PNode
  | root, [] => .ok root
  | root, api :: rest =>
    match insertApi fuel corpus [] root api with
    | .error e => .error e
    | .ok (root', _) => compileTreeGo fuel corpus root' rest

/-- Does the API's `consumes` sit inside the union of the produces of the
chain (its own API and its ancestors) and its predefined variables?  This
is the dependency-completeness condition of one node. -/
def consumesOk (chain : List PApi) (api : PApi) : Bool :=
  api.consumes.all fun v =>
    chain.any (fun a => v ∈ a.produces) || v ∈ api.predefined

mutual

/-- Dependency completeness over a whole (children-)tree: every node's
API consumes only what its own API, its ancestors' APIs (`ancs`) or its
predefined variables provide. -/
def treeInv (ancs : List PApi) : PNode → Bool
  | .mk a c _ _ _ =>
    (match a with
     | none => true
     | some x => consumesOk (x :: ancs) x) &&
    childrenInv (a.toList ++ ancs) c
termination_by structural n => n

/-- Dependency completeness for a list of sibling subtrees. -/
def childrenInv (chain : List PApi) : List PNode → Bool
  | [] => true
  | c :: cs => treeInv chain c && childrenInv chain cs
termination_by structural l => l

end

/-- A hook as `Api.prototype.scanHook` classifies it: a user function, a
string naming another API, an object wrapping a hook, or a list. -/
inductive HookSpec where
  | fn
  | name (s : String)
  | obj (inner : HookSpec)
  | list (l : List HookSpec)
deriving Repr

mutual

/-- The function `scanHook` of the `Api` prototype (hapi.js lines 810-828):
register (`addUniq`) every string hook as a referenced API. -/
def scanHook (refs : List String) : HookSpec → List String
  | .fn => refs
  | .name s => addUniq refs s
  | .obj inner => scanHook refs inner
  | .list l => scanHookList refs l
termination_by structural h => h

/-- The array branch of `scanHook`. -/
def scanHookList (refs : List String) : List HookSpec → List String
  | [] => refs
  | h :: rest => scanHookList (scanHook refs h) rest
termination_by structural l => l

end

mutual

/-- The string names occurring in a hook specification. -/
def hookStringNames : HookSpec → List String
  | .fn => []
  | .name s => [s]
  | .obj inner => hookStringNames inner
  | .list l => hookStringNamesList l
termination_by structural h => h

/-- The string names occurring in a list of hook specifications. -/
def hookStringNamesList : List HookSpec → List String
  | [] => []
  | h :: rest => hookStringNames h ++ hookStringNamesList rest
termination_by structural l => l

end

theorem mem_addUniq_of_mem {l : List String} {x y : String} (h : x ∈ l) :
    x ∈ addUniq l y := by
  unfold addUniq
  split
  · exact h
  · exact List.mem_append_left _ h

theorem self_mem_addUniq (l : List String) (x : String) : x ∈ addUniq l x := by
  unfold addUniq
  split
  · assumption
  · simp

mutual

theorem scanHook_mono : (h : HookSpec) → (refs : List String) → (x : String) →
    x ∈ refs → x ∈ scanHook refs h
  | .fn, _, _, hx => by simpa [scanHook] using hx
  | .name s, refs, x, hx => by
    simpa [scanHook] using mem_addUniq_of_mem hx
  | .obj inner, refs, x, hx => by
    simpa [scanHook] using scanHook_mono inner refs x hx
  | .list l, refs, x, hx => by
    simpa [scanHook] using scanHookList_mono l refs x hx
termination_by h => sizeOf h

theorem scanHookList_mono : (l : List HookSpec) → (refs : List String) → (x : String) →
    x ∈ refs → x ∈ scanHookList refs l
  | [], _, _, hx => by simpa [scanHookList] using hx
  | h :: rest, refs, x, hx => by
    simpa [scanHookList] using scanHookList_mono rest (scanHook refs h) x (scanHook_mono h refs x hx)
termination_by l => sizeOf l

end

mutual

theorem mem_scanHook_of_name : (h : HookSpec) → (refs : List String) → (s : String) →
    s ∈ hookStringNames h → s ∈ scanHook refs h
  | .fn, _, s, hs => by simp [hookStringNames] at hs
  | .name t, refs, s, hs => by
    simp [hookStringNames] at hs
    simpa [scanHook, hs] using self_mem_addUniq refs t
  | .obj inner, refs, s, hs => by
    simp [hookStringNames] at hs
    simpa [scanHook] using mem_scanHook_of_name inner refs s hs
  | .list l, refs, s, hs => by
    simp [hookStringNames] at hs
    simpa [scanHook] using mem_scanHookList_of_name l refs s hs
termination_by h => sizeOf h

theorem mem_scanHookList_of_name : (l : List HookSpec) → (refs : List String) → (s : String) →
    s ∈ hookStringNamesList l → s ∈ scanHookList refs l
  | [], _, s, hs => by simp [hookStringNamesList] at hs
  | h :: rest, refs, s, hs => by
    simp [hookStringNamesList] at hs
    rcases hs with hs | hs
    · simpa [scanHookList] using
        scanHookList_mono rest (scanHook refs h) s (mem_scanHook_of_name h refs s hs)
    · simpa [scanHookList] using mem_scanHookList_of_name rest (scanHook refs h) s hs
termination_by l => sizeOf l

end

/-- C4.  The claim says the hook chain is silently terminated iff the
received status code is listed in the hook's `quit` list.  The source
(its own comment: "If the status code is in the list of those which should
cause us to silently quit, do so; otherwise, throw an error") contradicts
its code, which branches on the raw `indexOf` result: with `quit = [404]`
a failed sub-run with status `404` (`indexOf = 0`, falsy) takes the error
path even though `404` is listed, while status `500` (`indexOf = -1`,
truthy) silently quits even though `500` is not listed. -/
theorem runStringHook_quit_indexOf_bug :
    runStringHook [404] true 404 = .failed ∧ (404 : Int) ∈ ([404] : List Int) ∧
    runStringHook [404] true 500 = .quitChain ∧ (500 : Int) ∉ ([404] : List Int) := by
  decide

/-- C5 counterexample.  With referenced names `["a"]` and API name `"ab"`,
the claim ("insertable iff its name is not a prefix of any referenced API
name") predicts insertable — `"ab"` is not a prefix of `"a"` — but
`isInsertableApi` returns `false`, because the code tests the reverse
direction (`name.startsWith(refs[i])`). -/
theorem isInsertableApi_spec_direction_counterexample :
    isInsertableApi ["a"] "ab" = false ∧
    isInsertableApiSpec ["a"] "ab" = true := by
  decide

theorem isInsertableApi_iff (refs : List String) (name : String) :
    isInsertableApi refs name = true ↔
      ∀ r ∈ refs, r.data.isPrefixOf name.data = false := by
  induction refs with
  | nil => simp [isInsertableApi]
  | cons r rs ih =>
    cases h : r.data.isPrefixOf name.data with
    | true => simp [isInsertableApi, h]
    | false => simp [isInsertableApi, h, ih]

/-- C5 amended: an API is insertable iff no *referenced API name is a
prefix of the API's name* (the direction the code actually tests); the
referenced APIs are those registered from `var_new` get/delete links
(`scanActions`) and from string hooks (`scanHook`). -/
theorem isInsertableApi_characterization :
    (∀ refs name, isInsertableApi refs name = true ↔
        ∀ r ∈ refs, r.data.isPrefixOf name.data = false) ∧
    (∀ apiName rbv st vn path st',
        scanVarNew apiName rbv st vn path = .ok st' →
        vn.get ∈ st'.referencedApis ∧ vn.delete ∈ st'.referencedApis) ∧
    (∀ (h : HookSpec) (refs : List String) (s : String),
        s ∈ hookStringNames h → s ∈ scanHook refs h) := by
  refine ⟨isInsertableApi_iff, ?_, mem_scanHook_of_name⟩
  intro apiName rbv st vn path st' hok
  unfold scanVarNew at hok
  split at hok
  · exact absurd hok (by simp)
  · split at hok
    · exact absurd hok (by simp)
    · next vn' heq =>
      have hfields : vn'.get = vn.get ∧ vn'.delete = vn.delete := by
        split at heq
        · split at heq
          · exact absurd heq (by simp)
          · cases heq
            exact ⟨rfl, rfl⟩
        · cases heq
          exact ⟨rfl, rfl⟩
      split at hok
      · exact absurd hok (by simp)
      · next sv _ =>
        have hst : st' = { varNew := some vn', produces := st.produces ++ [vn'.name],
                           referencedApis := addUniq (addUniq st.referencedApis vn'.get) vn'.delete,
                           serialVars := some sv } := by
          cases hok
          rfl
        subst hst
        rw [← hfields.1, ← hfields.2]
        exact ⟨mem_addUniq_of_mem (self_mem_addUniq _ _), self_mem_addUniq _ _⟩

/-- C9 counterexample: a virtual host whose documentation generation
throws makes `gendoc` return `3`, not the claimed `2` — the final
`errors.length > 0` check overwrites the intermediate `2`. -/
theorem gendoc_failure_exit_code_counterexample :
    (gendoc [] [⟨[], some "write failed"⟩]).1 ≠ 2 ∧
    (gendoc [] [⟨[], some "write failed"⟩]).1 = 3 := by
  decide

theorem gendoc_fold (vs : List VHostDoc) :
    ∀ acc : Nat × List String,
      ((acc.1 = 0 ∨ (acc.1 = 2 ∧ acc.2 ≠ [])) →
        ((vs.foldl gendoc.gendocStep acc).1 = 0 ∨
          ((vs.foldl gendoc.gendocStep acc).1 = 2 ∧ (vs.foldl gendoc.gendocStep acc).2 ≠ []))) ∧
      (acc.2 ≠ [] → (vs.foldl gendoc.gendocStep acc).2 ≠ []) ∧
      ((acc.1 = 2 ∧ acc.2 ≠ []) →
        ((vs.foldl gendoc.gendocStep acc).1 = 2 ∧ (vs.foldl gendoc.gendocStep acc).2 ≠ [])) ∧
      ((∃ v ∈ vs, v.thrown.isSome) →
        ((vs.foldl gendoc.gendocStep acc).1 = 2 ∧ (vs.foldl gendoc.gendocStep acc).2 ≠ [])) := by
  induction vs with
  | nil =>
    intro acc
    refine ⟨fun h => h, fun h => h, fun h => h, fun h => ?_⟩
    simp at h
  | cons v rest ih =>
    intro acc
    rw [List.foldl_cons]
    cases hv : v.thrown with
    | none =>
      have hstep : gendoc.gendocStep acc v = (acc.1, acc.2 ++ v.pushedErrors) := by
        simp [gendoc.gendocStep, hv]
      rw [hstep]
      obtain ⟨iha, ihb, ihc, ihd⟩ := ih (acc.1, acc.2 ++ v.pushedErrors)
      refine ⟨?_, ?_, ?_, ?_⟩
      · intro h
        apply iha
        rcases h with h | ⟨h1, h2⟩
        · exact Or.inl h
        · exact Or.inr ⟨h1, by simp [h2]⟩
      · intro h
        apply ihb
        simp [h]
      · intro ⟨h1, h2⟩
        apply ihc
        exact ⟨h1, by simp [h2]⟩
      · intro ⟨w, hw, hws⟩
        rcases List.mem_cons.mp hw with rfl | hw'
        · rw [hv] at hws
          simp at hws
        · exact ihd ⟨w, hw', hws⟩
    | some e =>
      have hstep : gendoc.gendocStep acc v =
          (2, acc.2 ++ v.pushedErrors ++ ["failure generating virtual host documentation: " ++ e]) := by
        simp [gendoc.gendocStep, hv]
      rw [hstep]
      obtain ⟨iha, ihb, ihc, ihd⟩ :=
        ih (2, acc.2 ++ v.pushedErrors ++ ["failure generating virtual host documentation: " ++ e])
      have h2 : (2 : Nat) = 2 ∧
          (acc.2 ++ v.pushedErrors ++ ["failure generating virtual host documentation: " ++ e]) ≠ [] := by
        simp
      refine ⟨fun _ => Or.inr (ihc h2), fun _ => (ihc h2).2, fun _ => ihc h2, fun _ => ihc h2⟩

/-- C9 amended: `gendoc` returns `0` exactly when no error was recorded;
a documentation-generation failure for some virtual host yields `3` (the
error recorded by the `catch` makes the final `errors.length > 0` check
override the intermediate `2`), and `2` is never returned. -/
theorem gendoc_exit_codes (init : List String) (vhosts : List VHostDoc) :
    ((gendoc init vhosts).1 = 0 ↔ (gendoc init vhosts).2 = []) ∧
    ((∃ v ∈ vhosts, v.thrown.isSome) → (gendoc init vhosts).1 = 3) ∧
    (gendoc init vhosts).1 ≠ 2 := by
  obtain ⟨ha, hb, hc, hd⟩ := gendoc_fold vhosts (0, init)
  have hinv := ha (Or.inl rfl)
  unfold gendoc
  refine ⟨?_, ?_, ?_⟩
  · by_cases hlen : (vhosts.foldl gendoc.gendocStep (0, init)).2.length > 0
    · simp only [hlen, if_true]
      constructor
      · intro h
        simp at h
      · intro h
        rw [h] at hlen
        simp at hlen
    · simp only [hlen, if_false]
      have h0 : (vhosts.foldl gendoc.gendocStep (0, init)).2 = [] := by
        cases hq : (vhosts.foldl gendoc.gendocStep (0, init)).2 with
        | nil => rfl
        | cons a l => rw [hq] at hlen; simp at hlen
      rcases hinv with h | ⟨_, hne⟩
      · simp [h, h0]
      · exact absurd h0 hne
  · intro hex
    have := hd hex
    have hlen : (vhosts.foldl gendoc.gendocStep (0, init)).2.length > 0 := by
      cases hq : (vhosts.foldl gendoc.gendocStep (0, init)).2 with
      | nil => exact absurd hq this.2
      | cons a l => simp [hq]
    simp [hlen]
  · by_cases hlen : (vhosts.foldl gendoc.gendocStep (0, init)).2.length > 0
    · simp [hlen]
    · simp only [hlen, if_false]
      rcases hinv with h | ⟨_, hne⟩
      · simp [h]
      · have h0 : (vhosts.foldl gendoc.gendocStep (0, init)).2 = [] := by
          cases hq : (vhosts.foldl gendoc.gendocStep (0, init)).2 with
          | nil => rfl
          | cons a l => rw [hq] at hlen; simp at hlen
        exact absurd h0 hne

/-- Witness for `gendoc_exit_codes` at concrete inputs. -/
theorem gendoc_exit_codes_witness :
    (gendoc [] []).1 = 0 ∧ (gendoc [] [⟨[], some "x"⟩]).1 = 3 :=
  ⟨(gendoc_exit_codes [] []).1.mpr (by decide),
   (gendoc_exit_codes [] [⟨[], some "x"⟩]).2.1 ⟨⟨[], some "x"⟩, by decide, by decide⟩⟩

/-- Witness for `isInsertableApi_characterization` at concrete inputs. -/
theorem isInsertableApi_characterization_witness :
    ("g" ∈ (ScanState.mk (some ⟨"v", "g", "d", some "p", none⟩) ["v"] ["g", "d"]
        (some [])).referencedApis ∧
     "d" ∈ (ScanState.mk (some ⟨"v", "g", "d", some "p", none⟩) ["v"] ["g", "d"]
        (some [])).referencedApis) ∧
    "x" ∈ scanHook [] (HookSpec.name "x") :=
  ⟨isInsertableApi_characterization.2.1 "api" (some []) ⟨none, [], [], none⟩
      ⟨"v", "g", "d", some "p", none⟩ none
      (ScanState.mk (some ⟨"v", "g", "d", some "p", none⟩) ["v"] ["g", "d"] (some []))
      (by decide),
   isInsertableApi_characterization.2.2 (HookSpec.name "x") [] "x" (by decide)⟩

/-- C8: when a `var_new` carries no `serial_vars`, the default is exactly
the variable names `getVarNames` finds in the request body
(`requestBodyVars`); with neither an explicit field nor a request body
var list (`undefined`), scanning fails — a compile-time error. -/
theorem scanVarNew_serial_vars_default
    (apiName : String) (st : ScanState) (vn : VarNew) (path : Option String)
    (body : Option JVal)
    (hsv : vn.serialVars = none) (hmv : st.varNew = none)
    (hpath : pathFalsy vn.path = false ∨ pathFalsy path = false) :
    (∃ st', scanVarNew apiName (some (getVarNames body)) st vn path = .ok st' ∧
        st'.serialVars = some (getVarNames body)) ∧
    (∃ e, scanVarNew apiName none st vn path = .error e) := by
  have hiss : st.varNew.isSome = false := by rw [hmv]; rfl
  constructor
  · cases hvp : pathFalsy vn.path with
    | false =>
      exact ⟨⟨some vn, st.produces ++ [vn.name],
              addUniq (addUniq st.referencedApis vn.get) vn.delete,
              some (getVarNames body)⟩,
             by simp [scanVarNew, hiss, hvp, hsv], rfl⟩
    | true =>
      have hp : pathFalsy path = false := by
        rcases hpath with h | h
        · rw [hvp] at h
          cases h
        · exact h
      exact ⟨⟨some { vn with path := path }, st.produces ++ [vn.name],
              addUniq (addUniq st.referencedApis vn.get) vn.delete,
              some (getVarNames body)⟩,
             by simp [scanVarNew, hiss, hvp, hp, hsv], rfl⟩
  · cases hvp : pathFalsy vn.path with
    | false =>
      exact ⟨"var_new for " ++ apiName ++ " needs a 'serial_vars' field",
             by simp [scanVarNew, hiss, hvp, hsv]⟩
    | true =>
      have hp : pathFalsy path = false := by
        rcases hpath with h | h
        · rw [hvp] at h
          cases h
        · exact h
      exact ⟨"var_new for " ++ apiName ++ " needs a 'serial_vars' field",
             by simp [scanVarNew, hiss, hvp, hp, hsv]⟩

/-- Witness for `scanVarNew_serial_vars_default` at concrete inputs. -/
theorem scanVarNew_serial_vars_default_witness :
    (∃ st', scanVarNew "t" (some (getVarNames (some (JVal.str "$u"))))
        ⟨none, [], [], none⟩ ⟨"v", "g", "d", some "p", none⟩ none = .ok st' ∧
        st'.serialVars = some (getVarNames (some (JVal.str "$u")))) ∧
    (∃ e, scanVarNew "t" none ⟨none, [], [], none⟩
        ⟨"v", "g", "d", some "p", none⟩ none = .error e) :=
  scanVarNew_serial_vars_default "t" ⟨none, [], [], none⟩
    ⟨"v", "g", "d", some "p", none⟩ none (some (JVal.str "$u"))
    (by decide) (by decide) (Or.inl (by decide))

theorem getVarCombinationsRecurse_snd (names : List String) :
    ∀ varsArray, (∀ n ∈ names, n ≠ "") →
      (getVarCombinationsRecurse varsArray names).2 = [] := by
  induction names with
  | nil =>
    intro va _
    simp [getVarCombinationsRecurse]
  | cons n rest ih =>
    intro va h
    have hn : ¬ n = "" := h n (List.mem_cons_self n rest)
    unfold getVarCombinationsRecurse
    rw [if_neg hn]
    exact ih _ fun m hm => h m (List.mem_cons_of_mem n hm)

/-- C10: `RunContext.prototype.run` hands `api.consumes` to
`getVarCombinations` by reference and the `shift()`-driven recursion
removes every (non-empty-string) name, so after the first execution the
shared `Api` object's `consumes` is empty, and any later run of the same
API object computes its combinations over an empty name list — a single
combination holding the unmodified environment. -/
theorem runVarCombinations_consumes_aliasing (vars : CEnv) (api : RApi)
    (hne : ∀ n ∈ api.consumes, n ≠ "") :
    (runVarCombinations vars api).2.consumes = [] ∧
    ∀ vars2 : CEnv,
      (runVarCombinations vars2 (runVarCombinations vars api).2).1 = .ok [vars2] := by
  have h1 : (runVarCombinations vars api).2.consumes = [] := by
    unfold runVarCombinations getVarCombinations
    exact getVarCombinationsRecurse_snd api.consumes [vars] hne
  refine ⟨h1, fun vars2 => ?_⟩
  obtain ⟨api2, hapi2⟩ : ∃ a, (runVarCombinations vars api).2 = a := ⟨_, rfl⟩
  rw [hapi2] at h1 ⊢
  simp [runVarCombinations, getVarCombinations, getVarCombinationsRecurse, h1]

/-- Witness for `runVarCombinations_consumes_aliasing` at concrete inputs. -/
theorem runVarCombinations_consumes_aliasing_witness :
    (∀ n ∈ (RApi.mk "t" ["a", "b"]).consumes, n ≠ "") ∧
    (runVarCombinations [("a", JVal.arr [JVal.str "1", JVal.str "2"])]
        (RApi.mk "t" ["a", "b"])).2.consumes = [] ∧
    (runVarCombinations [("c", JVal.str "q")]
        ((runVarCombinations [("a", JVal.arr [JVal.str "1", JVal.str "2"])]
            (RApi.mk "t" ["a", "b"])).2)).1 = .ok [[("c", JVal.str "q")]] :=
  ⟨by decide,
   (runVarCombinations_consumes_aliasing [("a", JVal.arr [JVal.str "1", JVal.str "2"])]
       (RApi.mk "t" ["a", "b"]) (by decide)).1,
   (runVarCombinations_consumes_aliasing [("a", JVal.arr [JVal.str "1", JVal.str "2"])]
       (RApi.mk "t" ["a", "b"]) (by decide)).2 [("c", JVal.str "q")]⟩

theorem resolveLoop_fixpoint (vars : Env) :
    ∀ n val1 v, resolveLoop vars n val1 = .ok v → resolve2 vars v = .ok v := by
  intro n
  induction n with
  | zero =>
    intro val1 v h
    exact absurd h (by simp [resolveLoop])
  | succ n ih =>
    intro val1 v h
    unfold resolveLoop at h
    split at h
    · exact absurd h (by simp)
    · next val2 heq2 =>
      by_cases heq : val2 = val1
      · rw [if_pos heq] at h
        cases h
        rw [heq2, heq]
      · rw [if_neg heq] at h
        exact ih val2 v h

theorem resolve_fixpoint : ∀ x vars v, resolve x vars = .ok v → resolve2 vars v = .ok v := by
  intro x vars v h
  unfold resolve at h
  split at h
  · exact absurd h (by simp)
  · exact resolveLoop_fixpoint vars 49 _ v h

theorem resolveLoop_diverge (x : JVal) (vars : Env) :
    ∀ n k val1, resolveIter x vars k = .ok val1 →
      (∀ i, k ≤ i → i < k + n → resolveIter x vars i ≠ resolveIter x vars (i + 1)) →
      ∃ e, resolveLoop vars n val1 = .error e := by
  intro n
  induction n with
  | zero =>
    intro k val1 _ _
    exact ⟨_, rfl⟩
  | succ n ih =>
    intro k val1 hk hdiff
    cases h2 : resolve2 vars val1 with
    | error e =>
      exact ⟨e, by unfold resolveLoop; rw [h2]⟩
    | ok val2 =>
      have hiter : resolveIter x vars (k + 1) = .ok val2 := by
        unfold resolveIter
        rw [hk]
        exact h2
      have hne : ¬ val2 = val1 := by
        intro hh
        apply hdiff k (Nat.le_refl k) (by omega)
        rw [hk, hiter, hh]
      obtain ⟨e, he⟩ := ih (k + 1) val2 hiter fun i h1 h2' => hdiff i (by omega) (by omega)
      refine ⟨e, ?_⟩
      unfold resolveLoop
      rw [h2]
      show (if val2 = val1 then Except.ok val1 else resolveLoop vars n val2) = Except.error e
      rw [if_neg hne]
      exact he

theorem resolve_diverge_error :
    ∀ x vars, (∀ i, i < 50 → 1 ≤ i → resolveIter x vars i ≠ resolveIter x vars (i + 1)) →
      ∃ e, resolve x vars = .error e := by
  intro x vars hdiff
  cases h2 : resolve2 vars x with
  | error e => exact ⟨e, by unfold resolve; rw [h2]⟩
  | ok val1 =>
    have h1 : resolveIter x vars 1 = .ok val1 := by
      unfold resolveIter
      rw [show resolveIter x vars 0 = .ok x from rfl]
      exact h2
    obtain ⟨e, he⟩ :=
      resolveLoop_diverge x vars 49 1 val1 h1 fun i hge hlt => hdiff i (by omega) hge
    refine ⟨e, ?_⟩
    unfold resolve
    rw [h2]
    exact he

theorem resolveStrGo_error (vars : Env) :
    ∀ ms str, (∃ m ∈ ms, vars.lookup (normalizeVar m) = none) →
      ∃ e, resolveStrGo vars ms str = .error e := by
  intro ms
  induction ms with
  | nil =>
    intro str h
    simp at h
  | cons m rest ih =>
    intro str h
    cases hl : vars.lookup (normalizeVar m) with
    | none =>
      exact ⟨_, by unfold resolveStrGo; rw [hl]⟩
    | some v =>
      rcases h with ⟨m', hm', hnone⟩
      rcases List.mem_cons.mp hm' with rfl | hmem
      · rw [hl] at hnone
        cases hnone
      · obtain ⟨e, he⟩ := ih (replaceFirst str m v) ⟨m', hmem, hnone⟩
        exact ⟨e, by unfold resolveStrGo; rw [hl]; exact he⟩

theorem resolve_missing_var :
    ∀ s vars, (∃ m ∈ getMatches s, vars.lookup (normalizeVar m) = none) →
      ∃ e, resolve (JVal.str s) vars = .error e := by
  intro s vars h
  have hs : ¬ s = "" := by
    rintro rfl
    rcases h with ⟨m, hm, _⟩
    simp [getMatches, getMatchesList, getMatchesListF] at hm
  obtain ⟨e, he⟩ := resolveStrGo_error vars (getMatches s) s h
  have h2 : resolve2 vars (JVal.str s) = .error e := by
    unfold resolve2
    rw [if_neg hs]
    unfold resolveStr
    rw [he]
  exact ⟨e, by unfold resolve; rw [h2]⟩

/-- C7: substitution reaches a fixed point — a value returned by
`resolve` is unchanged by a further `resolve2` pass; when no iterate
within the 50-pass bound repeats, `resolve` throws; and a string holding
a reference to a variable undefined in the environment makes `resolve`
throw. -/
theorem resolve_fixpoint_bound_missing :
    (∀ x vars v, resolve x vars = .ok v → resolve2 vars v = .ok v) ∧
    (∀ x vars, (∀ i, i < 50 → 1 ≤ i → resolveIter x vars i ≠ resolveIter x vars (i + 1)) →
        ∃ e, resolve x vars = .error e) ∧
    (∀ s vars, (∃ m ∈ getMatches s, vars.lookup (normalizeVar m) = none) →
        ∃ e, resolve (JVal.str s) vars = .error e) :=
  ⟨resolve_fixpoint, resolve_diverge_error, resolve_missing_var⟩

/-- Witness for `resolve_fixpoint_bound_missing` at concrete inputs. -/
theorem resolve_fixpoint_bound_missing_witness :
    resolve2 [("a", "world")] (JVal.str "hi world") = .ok (JVal.str "hi world") ∧
    (∃ e, resolve (JVal.str "$a") [("a", "$b"), ("b", "$a")] = .error e) ∧
    (∃ e, resolve (JVal.str "$missing") [] = .error e) :=
  ⟨resolve_fixpoint_bound_missing.1 (JVal.str "hi $a") [("a", "world")]
      (JVal.str "hi world") (by decide),
   resolve_fixpoint_bound_missing.2.1 (JVal.str "$a") [("a", "$b"), ("b", "$a")] (by decide),
   resolve_fixpoint_bound_missing.2.2 "$missing" [] (by decide)⟩

set_option maxHeartbeats 3200000 in
/-- C3: in the nine-stage waterfall, the afterAll hook runs iff the
afterApi stage ran and succeeded (a children-stage failure does not stop
it); onAfterRun runs iff onBeforeRun ran and succeeded; when the node has
a postRun subtree, it runs iff the before stage ran and succeeded; and the
error passed to the caller is the first error among the stages that ran,
in waterfall order. -/
theorem doRunWaterfall_stage_conditions (h : WfHooks) (r : WfRan) (e : Option String)
    (hrun : doRunWaterfall h = (r, e)) :
    (r.afterAll = true ↔ (r.afterApi = true ∧ h.afterApi = none)) ∧
    (r.children = true → r.afterAll = true) ∧
    (r.onAfterRun = true ↔ (r.onBeforeRun = true ∧ h.onBeforeRun = none)) ∧
    (h.hasPostRun = true → (r.postRun = true ↔ (r.before = true ∧ h.before = none))) ∧
    e = wfFirstErr h r := by
  have hr : r = (doRunWaterfall h).1 := by rw [hrun]
  have he : e = (doRunWaterfall h).2 := by rw [hrun]
  subst hr
  subst he
  clear hrun
  obtain ⟨hpre, pre, obr, bef, mn, aapi, ch, aall, oar, hpost, post⟩ := h
  cases hpre <;> cases hpost <;>
    cases pre <;> cases obr <;> cases bef <;> cases mn <;> cases aapi <;>
    cases ch <;> cases aall <;> cases oar <;> cases post <;>
    simp [doRunWaterfall, wfStage, wfFirstErr]

/-- Well-formedness of a queue state: no context is queued twice, every
queued context has arrived, and every started context has arrived. -/
def QInv (s : QState) : Prop :=
  s.queue.Nodup ∧ (∀ c ∈ s.queue, QAct.arrive c ∈ s.acts) ∧
  (∀ c, QAct.start c ∈ s.acts → QAct.arrive c ∈ s.acts)

/-- A context that arrived and has not completed is still queued; in this
semantics even a completed non-owner stays queued, so only the completion
disjunct weakens. -/
def QReach1 (c1 : Nat) (s : QState) : Prop :=
  QAct.complete c1 ∈ s.acts ∨ c1 ∈ s.queue

/-- The safety relation for an ordered pair of contexts: if the later one
has started, its start is logged after the earlier one's completion; while
the earlier one is uncompleted, both sit in the queue in arrival order and
the later one has not started. -/
def QSafe (c1 c2 : Nat) (s : QState) : Prop :=
  (QAct.start c2 ∈ s.acts → [QAct.complete c1, QAct.start c2].Sublist s.acts) ∧
  (QAct.complete c1 ∉ s.acts →
    (∃ q1 q2 q3, s.queue = q1 ++ c1 :: (q2 ++ c2 :: q3)) ∧ QAct.start c2 ∉ s.acts)

theorem qStep_arrive_eq {s : QState} {c : Nat} {s' : QState}
    (h : qStep s (QEv.arrive c) = some s') :
    QAct.arrive c ∉ s.acts ∧
    ((s.queue = [] ∧
        s' = ⟨[c], s.owners ++ [c], s.acts ++ [QAct.arrive c, QAct.start c]⟩) ∨
     (s.queue ≠ [] ∧ s' = ⟨s.queue ++ [c], s.owners, s.acts ++ [QAct.arrive c]⟩)) := by
  simp only [qStep] at h
  split at h
  · exact absurd h (by simp)
  · next hfresh =>
    refine ⟨hfresh, ?_⟩
    split at h
    · next hlen =>
      left
      have hq : s.queue = [] := by
        simpa [List.length_append] using hlen
      cases h
      refine ⟨hq, ?_⟩
      rw [hq]
      rfl
    · next hlen =>
      right
      have hq : ¬ s.queue = [] := by
        intro hh
        apply hlen
        simp [hh]
      cases h
      exact ⟨hq, rfl⟩

theorem qStep_complete_eq {s : QState} {c : Nat} {s' : QState}
    (h : qStep s (QEv.complete c) = some s') :
    QAct.start c ∈ s.acts ∧ QAct.complete c ∉ s.acts ∧
    ((c ∈ s.owners ∧ ∃ rest, s.queue = c :: rest ∧
        ((rest = [] ∧ s' = ⟨[], s.owners, s.acts ++ [QAct.complete c]⟩) ∨
         (∃ y t, rest = y :: t ∧
            s' = ⟨y :: t, s.owners, s.acts ++ [QAct.complete c, QAct.start y]⟩))) ∨
     (c ∉ s.owners ∧ s' = ⟨s.queue, s.owners, s.acts ++ [QAct.complete c]⟩)) := by
  simp only [qStep] at h
  split at h
  · next hrun =>
    refine ⟨hrun.1, hrun.2, ?_⟩
    split at h
    · next hown =>
      split at h
      · exact absurd h (by simp)
      · next x rest hq =>
        split at h
        · next hx =>
          subst hx
          split at h
          · cases h
            exact Or.inl ⟨hown, [], hq, Or.inl ⟨rfl, rfl⟩⟩
          · next y t =>
            cases h
            exact Or.inl ⟨hown, y :: t, hq, Or.inr ⟨y, t, rfl, rfl⟩⟩
        · exact absurd h (by simp)
    · next hown =>
      cases h
      exact Or.inr ⟨hown, rfl⟩
  · exact absurd h (by simp)

theorem qStep_acts_mono {s : QState} {ev : QEv} {s' : QState}
    (h : qStep s ev = some s') : ∀ a ∈ s.acts, a ∈ s'.acts := by
  cases ev with
  | arrive c =>
    obtain ⟨-, h2⟩ := qStep_arrive_eq h
    rcases h2 with ⟨-, rfl⟩ | ⟨-, rfl⟩ <;> intro a ha <;> exact List.mem_append_left _ ha
  | complete c =>
    obtain ⟨-, -, h2⟩ := qStep_complete_eq h
    rcases h2 with ⟨-, rest, hq, h3⟩ | ⟨-, rfl⟩
    · rcases h3 with ⟨-, rfl⟩ | ⟨y, t, -, rfl⟩ <;> intro a ha <;>
        exact List.mem_append_left _ ha
    · intro a ha
      exact List.mem_append_left _ ha

theorem qExec_preserve (P : QState → Prop)
    (hstep : ∀ s ev s', P s → qStep s ev = some s' → P s') :
    ∀ (evs : List QEv) (s s' : QState), P s → qExec s evs = some s' → P s' := by
  intro evs
  induction evs with
  | nil =>
    intro s s' hP h
    unfold qExec at h
    cases h
    exact hP
  | cons e es ih =>
    intro s s' hP h
    unfold qExec at h
    split at h
    · exact absurd h (by simp)
    · next s1 heq => exact ih s1 s' (hstep s e s1 hP heq) h

theorem qExec_acts_mono :
    ∀ (evs : List QEv) (s s' : QState), qExec s evs = some s' →
      ∀ a ∈ s.acts, a ∈ s'.acts := by
  intro evs
  induction evs with
  | nil =>
    intro s s' h a ha
    unfold qExec at h
    cases h
    exact ha
  | cons e es ih =>
    intro s s' h a ha
    unfold qExec at h
    split at h
    · exact absurd h (by simp)
    · next s1 heq => exact ih s1 s' h a (qStep_acts_mono heq a ha)

theorem qStep_inv {s : QState} {ev : QEv} {s' : QState}
    (hinv : QInv s) (h : qStep s ev = some s') : QInv s' := by
  obtain ⟨hnd, hqa, hsa⟩ := hinv
  cases ev with
  | arrive c =>
    obtain ⟨hfresh, h2⟩ := qStep_arrive_eq h
    have hcq : c ∉ s.queue := fun hc => hfresh (hqa c hc)
    rcases h2 with ⟨hq, rfl⟩ | ⟨hq, rfl⟩
    · refine ⟨by simp, ?_, ?_⟩
      · intro x hx
        simp only [List.mem_singleton] at hx
        subst hx
        simp
      · intro x hx
        rcases List.mem_append.mp hx with hx | hx
        · exact List.mem_append_left _ (hsa x hx)
        · simp only [List.mem_cons, List.mem_singleton, List.not_mem_nil, or_false] at hx
          rcases hx with hx | hx
          · exact absurd hx (by simp)
          · have hxc : x = c := by injection hx
            subst hxc
            simp
    · refine ⟨?_, ?_, ?_⟩
      · rw [List.nodup_append]
        exact ⟨hnd, List.nodup_singleton c, by simpa using hcq⟩
      · intro x hx
        rcases List.mem_append.mp hx with hx | hx
        · exact List.mem_append_left _ (hqa x hx)
        · simp only [List.mem_singleton] at hx
          subst hx
          simp
      · intro x hx
        rcases List.mem_append.mp hx with hx | hx
        · exact List.mem_append_left _ (hsa x hx)
        · simp at hx
  | complete c =>
    obtain ⟨-, -, h2⟩ := qStep_complete_eq h
    rcases h2 with ⟨hown, rest, hq, h3⟩ | ⟨hown, rfl⟩
    · have hndr : (c :: rest).Nodup := hq ▸ hnd
      rcases h3 with ⟨hr, rfl⟩ | ⟨y, t, hr, rfl⟩
      · refine ⟨List.nodup_nil, by simp, ?_⟩
        intro x hx
        rcases List.mem_append.mp hx with hx | hx
        · exact List.mem_append_left _ (hsa x hx)
        · simp at hx
      · refine ⟨?_, ?_, ?_⟩
        · have hrest : rest.Nodup := hndr.of_cons
          rw [hr] at hrest
          exact hrest
        · intro x hx
          have hxq : x ∈ s.queue := by
            rw [hq, hr]
            exact List.mem_cons_of_mem _ hx
          exact List.mem_append_left _ (hqa x hxq)
        · intro x hx
          rcases List.mem_append.mp hx with hx | hx
          · exact List.mem_append_left _ (hsa x hx)
          · simp only [List.mem_cons, List.mem_singleton, List.not_mem_nil, or_false] at hx
            rcases hx with hx | hx
            · exact absurd hx (by simp)
            · have hxy : x = y := by injection hx
              rw [hxy]
              have hyq : y ∈ s.queue := by
                rw [hq, hr]
                exact List.mem_cons_of_mem _ (List.mem_cons_self _ _)
              exact List.mem_append_left _ (hqa y hyq)
    · refine ⟨hnd, ?_, ?_⟩
      · intro x hx
        exact List.mem_append_left _ (hqa x hx)
      · intro x hx
        rcases List.mem_append.mp hx with hx | hx
        · exact List.mem_append_left _ (hsa x hx)
        · simp at hx

theorem qStep_reach1 {c1 : Nat} {s : QState} {ev : QEv} {s' : QState}
    (hr : QReach1 c1 s) (h : qStep s ev = some s') : QReach1 c1 s' := by
  cases ev with
  | arrive c =>
    obtain ⟨-, h2⟩ := qStep_arrive_eq h
    rcases h2 with ⟨hq, rfl⟩ | ⟨hq, rfl⟩
    · rcases hr with hc | hc
      · exact Or.inl (List.mem_append_left _ hc)
      · rw [hq] at hc
        simp at hc
    · rcases hr with hc | hc
      · exact Or.inl (List.mem_append_left _ hc)
      · exact Or.inr (List.mem_append_left _ hc)
  | complete c =>
    obtain ⟨-, -, h2⟩ := qStep_complete_eq h
    by_cases hcc : c = c1
    · subst hcc
      rcases h2 with ⟨-, rest, hq, h3⟩ | ⟨-, rfl⟩
      · rcases h3 with ⟨-, rfl⟩ | ⟨y, t, -, rfl⟩ <;>
          exact Or.inl (List.mem_append_right _ (by simp))
      · exact Or.inl (List.mem_append_right _ (by simp))
    · rcases hr with hc | hc
      · rcases h2 with ⟨-, rest, hq, h3⟩ | ⟨-, rfl⟩
        · rcases h3 with ⟨-, rfl⟩ | ⟨y, t, -, rfl⟩ <;>
            exact Or.inl (List.mem_append_left _ hc)
        · exact Or.inl (List.mem_append_left _ hc)
      · rcases h2 with ⟨-, rest, hq, h3⟩ | ⟨-, rfl⟩
        · rw [hq] at hc
          rcases List.mem_cons.mp hc with hc' | hc'
          · exact absurd hc'.symm hcc
          · rcases h3 with ⟨hr0, rfl⟩ | ⟨y, t, hr0, rfl⟩
            · rw [hr0] at hc'
              simp at hc'
            · rw [hr0] at hc'
              exact Or.inr hc'
        · exact Or.inr hc

theorem qArrive2_safe {c1 c2 : Nat} {s s' : QState} (hne : c1 ≠ c2) (hinv : QInv s)
    (hr1 : QReach1 c1 s) (h : qStep s (QEv.arrive c2) = some s') : QSafe c1 c2 s' := by
  obtain ⟨hnd, hqa, hsa⟩ := hinv
  obtain ⟨hfresh, h2⟩ := qStep_arrive_eq h
  have hns2 : QAct.start c2 ∉ s.acts := fun hh => hfresh (hsa c2 hh)
  rcases h2 with ⟨hq, rfl⟩ | ⟨hq, rfl⟩
  · have hc1 : QAct.complete c1 ∈ s.acts := by
      rcases hr1 with hc | hc
      · exact hc
      · rw [hq] at hc
        simp at hc
    constructor
    · intro _
      have h1 : List.Sublist [QAct.complete c1] s.acts := List.singleton_sublist.mpr hc1
      have h2' : List.Sublist [QAct.start c2] [QAct.arrive c2, QAct.start c2] := by
        rw [List.singleton_sublist]
        simp
      exact h1.append h2'
    · intro hnc
      exact absurd (List.mem_append_left _ hc1) hnc
  · by_cases hc1in : QAct.complete c1 ∈ s.acts
    · constructor
      · intro hst
        rcases List.mem_append.mp hst with hin | hin
        · exact absurd hin hns2
        · simp at hin
      · intro hnc
        exact absurd (List.mem_append_left _ hc1in) hnc
    · have hc1q : c1 ∈ s.queue := by
        rcases hr1 with hc | hc
        · exact absurd hc hc1in
        · exact hc
      obtain ⟨q1, q3, hq13⟩ := List.append_of_mem hc1q
      constructor
      · intro hst
        rcases List.mem_append.mp hst with hin | hin
        · exact absurd hin hns2
        · simp at hin
      · intro _
        refine ⟨⟨q1, q3, [], ?_⟩, ?_⟩
        · rw [hq13]
          simp
        · intro hh
          rcases List.mem_append.mp hh with hin | hin
          · exact absurd hin hns2
          · simp at hin

theorem qStep_safe {c1 c2 : Nat} {s : QState} {ev : QEv} {s' : QState}
    (hne : c1 ≠ c2) (hinv : QInv s)
    (harr1 : QAct.arrive c1 ∈ s.acts) (harr2 : QAct.arrive c2 ∈ s.acts)
    (hsafe : QSafe c1 c2 s) (h : qStep s ev = some s') : QSafe c1 c2 s' := by
  obtain ⟨hnd, hqa, hsa⟩ := hinv
  cases ev with
  | arrive c =>
    obtain ⟨hfresh, h2⟩ := qStep_arrive_eq h
    have hc2 : c ≠ c2 := fun hh => hfresh (hh ▸ harr2)
    rcases h2 with ⟨hq, rfl⟩ | ⟨hq, rfl⟩
    · constructor
      · intro hst
        have hin : QAct.start c2 ∈ s.acts := by
          rcases List.mem_append.mp hst with hin | hin
          · exact hin
          · simp only [List.mem_cons, List.mem_singleton, List.not_mem_nil, or_false] at hin
            rcases hin with hin | hin
            · exact absurd hin (by simp)
            · have hcc : c2 = c := by injection hin
              exact absurd hcc.symm hc2
        exact (hsafe.1 hin).trans (List.sublist_append_left _ _)
      · intro hnc
        have hnc' : QAct.complete c1 ∉ s.acts := fun hh => hnc (List.mem_append_left _ hh)
        obtain ⟨⟨q1, q2, q3, hqd⟩, -⟩ := hsafe.2 hnc'
        rw [hq] at hqd
        exact absurd hqd.symm (by simp)
    · constructor
      · intro hst
        have hin : QAct.start c2 ∈ s.acts := by
          rcases List.mem_append.mp hst with hin | hin
          · exact hin
          · simp at hin
        exact (hsafe.1 hin).trans (List.sublist_append_left _ _)
      · intro hnc
        have hnc' : QAct.complete c1 ∉ s.acts := fun hh => hnc (List.mem_append_left _ hh)
        obtain ⟨⟨q1, q2, q3, hqd⟩, hns⟩ := hsafe.2 hnc'
        refine ⟨⟨q1, q2, q3 ++ [c], ?_⟩, ?_⟩
        · rw [hqd]
          simp
        · intro hh
          rcases List.mem_append.mp hh with hin | hin
          · exact hns hin
          · simp at hin
  | complete c =>
    obtain ⟨hstc, hncc, h2⟩ := qStep_complete_eq h
    rcases h2 with ⟨hown, rest, hq, h3⟩ | ⟨hown, rfl⟩
    · have hndr : (c :: rest).Nodup := hq ▸ hnd
      by_cases hc1in : QAct.complete c1 ∈ s.acts
      · constructor
        · intro hst
          rcases h3 with ⟨hr, rfl⟩ | ⟨y, t, hr, rfl⟩
          · rcases List.mem_append.mp hst with hin | hin
            · exact (hsafe.1 hin).trans (List.sublist_append_left _ _)
            · simp at hin
          · rcases List.mem_append.mp hst with hin | hin
            · exact (hsafe.1 hin).trans (List.sublist_append_left _ _)
            · simp only [List.mem_cons, List.mem_singleton, List.not_mem_nil, or_false] at hin
              rcases hin with hin | hin
              · exact absurd hin (by simp)
              · have hcy : c2 = y := by injection hin
                have h1 : List.Sublist [QAct.complete c1] s.acts :=
                  List.singleton_sublist.mpr hc1in
                have h2' : List.Sublist [QAct.start c2] [QAct.complete c, QAct.start y] := by
                  rw [List.singleton_sublist, hcy]
                  simp
                exact h1.append h2'
        · intro hnc
          rcases h3 with ⟨hr, rfl⟩ | ⟨y, t, hr, rfl⟩ <;>
            exact absurd (List.mem_append_left _ hc1in) hnc
      · obtain ⟨⟨q1, q2, q3, hqd⟩, hns⟩ := hsafe.2 hc1in
        rw [hq] at hqd
        cases q1 with
        | nil =>
          simp only [List.nil_append, List.cons.injEq] at hqd
          obtain ⟨hcc1, hrest⟩ := hqd
          rcases h3 with ⟨hr, rfl⟩ | ⟨y, t, hr, rfl⟩
          · rw [hr] at hrest
            exact absurd hrest.symm (by simp)
          · constructor
            · intro hst
              rcases List.mem_append.mp hst with hin | hin
              · exact absurd hin hns
              · simp only [List.mem_cons, List.mem_singleton, List.not_mem_nil, or_false] at hin
                rcases hin with hin | hin
                · exact absurd hin (by simp)
                · have hcy : c2 = y := by injection hin
                  rw [← hcc1, hcy]
                  exact List.sublist_append_right _ _
            · intro hnc
              refine absurd (List.mem_append_right _ ?_) hnc
              rw [← hcc1]
              simp
        | cons x1 q1' =>
          simp only [List.cons_append, List.cons.injEq] at hqd
          obtain ⟨hcx, hrest⟩ := hqd
          rcases h3 with ⟨hr, rfl⟩ | ⟨y, t, hr, rfl⟩
          · rw [hr] at hrest
            exact absurd hrest.symm (by simp)
          · have hynotc2 : ¬ y = c2 := by
              intro hh
              have hrestnd : rest.Nodup := hndr.of_cons
              have hyt : y :: t = q1' ++ c1 :: (q2 ++ c2 :: q3) := by
                rw [← hr, hrest]
              cases hq1' : q1' with
              | nil =>
                rw [hq1'] at hyt
                simp only [List.nil_append, List.cons.injEq] at hyt
                apply hne
                rw [← hyt.1]
                exact hh
              | cons b bs =>
                rw [hq1'] at hyt
                simp only [List.cons_append, List.cons.injEq] at hyt
                obtain ⟨hyb, ht⟩ := hyt
                have hyint : y ∈ t := by
                  rw [ht, hh]
                  simp
                rw [hr] at hrestnd
                exact (List.nodup_cons.mp hrestnd).1 hyint
            constructor
            · intro hst
              rcases List.mem_append.mp hst with hin | hin
              · exact absurd hin hns
              · simp only [List.mem_cons, List.mem_singleton, List.not_mem_nil, or_false] at hin
                rcases hin with hin | hin
                · exact absurd hin (by simp)
                · have hcy : c2 = y := by injection hin
                  exact absurd hcy.symm hynotc2
            · intro _
              refine ⟨⟨q1', q2, q3, ?_⟩, ?_⟩
              · rw [← hr, hrest]
              · intro hh
                rcases List.mem_append.mp hh with hin | hin
                · exact hns hin
                · simp only [List.mem_cons, List.mem_singleton, List.not_mem_nil, or_false] at hin
                  rcases hin with hin | hin
                  · exact absurd hin (by simp)
                  · have hcy : c2 = y := by injection hin
                    exact absurd hcy.symm hynotc2
    · by_cases hc1in : QAct.complete c1 ∈ s.acts
      · constructor
        · intro hst
          have hin : QAct.start c2 ∈ s.acts := by
            rcases List.mem_append.mp hst with hin | hin
            · exact hin
            · simp at hin
          exact (hsafe.1 hin).trans (List.sublist_append_left _ _)
        · intro hnc
          exact absurd (List.mem_append_left _ hc1in) hnc
      · obtain ⟨⟨q1, q2, q3, hqd⟩, hns⟩ := hsafe.2 hc1in
        constructor
        · intro hst
          have hin : QAct.start c2 ∈ s.acts := by
            rcases List.mem_append.mp hst with hin | hin
            · exact hin
            · simp at hin
          exact absurd hin hns
        · intro hnc
          refine ⟨⟨q1, q2, q3, hqd⟩, ?_⟩
          intro hh
          rcases List.mem_append.mp hh with hin | hin
          · exact hns hin
          · simp at hin

theorem qExec_append :
    ∀ (l1 l2 : List QEv) (s : QState),
      qExec s (l1 ++ l2) =
        match qExec s l1 with
        | none => none
        | some s1 => qExec s1 l2 := by
  intro l1
  induction l1 with
  | nil =>
    intro l2 s
    rfl
  | cons e es ih =>
    intro l2 s
    show qExec s (e :: (es ++ l2)) = _
    simp only [qExec]
    cases h : qStep s e with
    | none => rfl
    | some s1 => exact ih l2 s1

end Hapi

namespace Hapi

/-- C2 (amended): the serialization discipline of `doRun`.  On arrival a
context is appended to the per-key FIFO and its waterfall starts
immediately iff the queue was empty (otherwise it suspends); on completion
only the context that owns the queue reference — the one that started at
arrival, whose invocation entered `doRun` through the enqueue arm — pops
itself and, when a waiter remains, resumes the new head; a context resumed
with `proceed = true` completes leaving the queue untouched and resumes
nobody (its invocation's `queue` local is undefined, so lines 1353-1366
are skipped), and so the queue is popped at most once per batch.  For any
two contexts arriving in order on the same queue, the second's waterfall
(hence its main request) still does not start until after the first's
completion. -/
theorem doRun_serialization :
    (∀ (s : QState) (c : Nat) (s' : QState), qStep s (QEv.arrive c) = some s' →
       ((s.queue = [] ∧
           s' = ⟨[c], s.owners ++ [c], s.acts ++ [QAct.arrive c, QAct.start c]⟩) ∨
        (s.queue ≠ [] ∧ s' = ⟨s.queue ++ [c], s.owners, s.acts ++ [QAct.arrive c]⟩))) ∧
    (∀ (s : QState) (c : Nat) (s' : QState), qStep s (QEv.complete c) = some s' →
       ((c ∈ s.owners ∧ ∃ rest, s.queue = c :: rest ∧
           ((rest = [] ∧ s' = ⟨[], s.owners, s.acts ++ [QAct.complete c]⟩) ∨
            (∃ y t, rest = y :: t ∧
               s' = ⟨y :: t, s.owners, s.acts ++ [QAct.complete c, QAct.start y]⟩))) ∨
        (c ∉ s.owners ∧ s' = ⟨s.queue, s.owners, s.acts ++ [QAct.complete c]⟩))) ∧
    (∀ (l1 l2 l3 : List QEv) (c1 c2 : Nat) (s : QState), c1 ≠ c2 →
       qExec ⟨[], [], []⟩ (l1 ++ QEv.arrive c1 :: (l2 ++ QEv.arrive c2 :: l3)) = some s →
       QAct.start c2 ∈ s.acts →
       [QAct.complete c1, QAct.start c2].Sublist s.acts) := by
  refine ⟨fun s c s' h => (qStep_arrive_eq h).2,
    fun s c s' h => (qStep_complete_eq h).2.2, ?_⟩
  intro l1 l2 l3 c1 c2 s hne hexec hstart
  rw [qExec_append] at hexec
  split at hexec
  · exact absurd hexec (by simp)
  · next s0 hex0 =>
    unfold qExec at hexec
    split at hexec
    · exact absurd hexec (by simp)
    · next s1 hstep1 =>
      rw [qExec_append] at hexec
      split at hexec
      · exact absurd hexec (by simp)
      · next s2 hex2 =>
        unfold qExec at hexec
        split at hexec
        · exact absurd hexec (by simp)
        · next s3 hstep2 =>
          have hinv0 : QInv s0 :=
            qExec_preserve QInv (fun s ev s' hP h => qStep_inv hP h) l1 _ s0
              ⟨List.nodup_nil, by simp, by simp⟩ hex0
          have hinv1 : QInv s1 := qStep_inv hinv0 hstep1
          have harr1_1 : QAct.arrive c1 ∈ s1.acts := by
            obtain ⟨-, h2⟩ := qStep_arrive_eq hstep1
            rcases h2 with ⟨-, rfl⟩ | ⟨-, rfl⟩ <;> simp
          have hr1 : QReach1 c1 s1 := by
            obtain ⟨-, h2⟩ := qStep_arrive_eq hstep1
            rcases h2 with ⟨-, rfl⟩ | ⟨-, rfl⟩
            · exact Or.inr (by simp)
            · exact Or.inr (by simp)
          have hP2 : QInv s2 ∧ QReach1 c1 s2 ∧ QAct.arrive c1 ∈ s2.acts :=
            qExec_preserve (fun t => QInv t ∧ QReach1 c1 t ∧ QAct.arrive c1 ∈ t.acts)
              (fun t ev t' hP h =>
                ⟨qStep_inv hP.1 h, qStep_reach1 hP.2.1 h, qStep_acts_mono h _ hP.2.2⟩)
              l2 s1 s2 ⟨hinv1, hr1, harr1_1⟩ hex2
          have hsafe3 : QSafe c1 c2 s3 := qArrive2_safe hne hP2.1 hP2.2.1 hstep2
          have hinv3 : QInv s3 := qStep_inv hP2.1 hstep2
          have harr1_3 : QAct.arrive c1 ∈ s3.acts := qStep_acts_mono hstep2 _ hP2.2.2
          have harr2_3 : QAct.arrive c2 ∈ s3.acts := by
            obtain ⟨-, h2⟩ := qStep_arrive_eq hstep2
            rcases h2 with ⟨-, rfl⟩ | ⟨-, rfl⟩ <;> simp
          have hFinal :
              QInv s ∧ QAct.arrive c1 ∈ s.acts ∧ QAct.arrive c2 ∈ s.acts ∧ QSafe c1 c2 s :=
            qExec_preserve
              (fun t => QInv t ∧ QAct.arrive c1 ∈ t.acts ∧ QAct.arrive c2 ∈ t.acts ∧
                QSafe c1 c2 t)
              (fun t ev t' hP h =>
                ⟨qStep_inv hP.1 h, qStep_acts_mono h _ hP.2.1, qStep_acts_mono h _ hP.2.2.1,
                 qStep_safe hne hP.1 hP.2.1 hP.2.2.1 hP.2.2.2 h⟩)
              l3 s3 s ⟨hinv3, harr1_3, harr2_3, hsafe3⟩ hexec
          exact hFinal.2.2.2.1 hstart

/-- Counterexample to C2 as stated: the claim says every completing
context pops itself from the queue and resumes the next waiter, but a
resumed context does not.  Context 0 arrives and runs while context 1
arrives and waits; 0 completes, pops itself and resumes 1; when 1 —
re-invoked with `proceed = true`, its `queue` local undefined — completes,
it stays at the head of the queue, and after a third context 2 arrives the
queue is `[1, 2]` with 2 never started (`QAct.start 2` absent from the
log); no further event can ever complete 2. -/
theorem doRun_completion_no_pop_counterexample :
    qExec ⟨[], [], []⟩
        [QEv.arrive 0, QEv.arrive 1, QEv.complete 0, QEv.complete 1, QEv.arrive 2] =
      some ⟨[1, 2], [0],
        [QAct.arrive 0, QAct.start 0, QAct.arrive 1, QAct.complete 0, QAct.start 1,
         QAct.complete 1, QAct.arrive 2]⟩ ∧
    qExec ⟨[], [], []⟩
        [QEv.arrive 0, QEv.arrive 1, QEv.complete 0, QEv.complete 1, QEv.arrive 2,
         QEv.complete 2] = none := by
  constructor
  · decide
  · decide

theorem apiList_setInserting (n : PNode) (nm : String) :
    (n.setInserting nm).apiList = n.apiList := by
  cases n
  rfl

theorem children_setInserting (n : PNode) (nm : String) :
    (n.setInserting nm).children = n.children := by
  cases n
  rfl

theorem treeInv_setInserting (ancs : List PApi) (n : PNode) (nm : String) :
    treeInv ancs (n.setInserting nm) = treeInv ancs n := by
  cases n
  rfl

theorem treeInv_clearInserting (ancs : List PApi) (n : PNode) (nm : String) :
    treeInv ancs (n.clearInserting nm) = treeInv ancs n := by
  cases n
  rfl

theorem treeInv_addSubTree (ancs : List PApi) (n : PNode) (d : List String) :
    treeInv ancs (n.addSubTree d) = treeInv ancs n := by
  cases n
  rfl

theorem api_setInserting (n : PNode) (nm : String) :
    (n.setInserting nm).api = n.api := by
  cases n
  rfl

theorem api_clearInserting (n : PNode) (nm : String) :
    (n.clearInserting nm).api = n.api := by
  cases n
  rfl

theorem api_withChildren (n : PNode) (cs : List PNode) :
    (n.withChildren cs).api = n.api := by
  cases n
  rfl

theorem api_addSubTree (n : PNode) (d : List String) :
    (n.addSubTree d).api = n.api := by
  cases n
  rfl

theorem apiList_clearInserting (n : PNode) (nm : String) :
    (n.clearInserting nm).apiList = n.apiList := by
  cases n
  rfl

theorem apiList_withChildren (n : PNode) (cs : List PNode) :
    (n.withChildren cs).apiList = n.apiList := by
  cases n
  rfl

theorem apiList_addSubTree (n : PNode) (d : List String) :
    (n.addSubTree d).apiList = n.apiList := by
  cases n
  rfl

theorem children_clearInserting (n : PNode) (nm : String) :
    (n.clearInserting nm).children = n.children := by
  cases n
  rfl

theorem children_withChildren (n : PNode) (cs : List PNode) :
    (n.withChildren cs).children = cs := by
  cases n
  rfl

theorem children_addSubTree (n : PNode) (d : List String) :
    (n.addSubTree d).children = n.children := by
  cases n
  rfl

theorem withChildren_self (n : PNode) : n.withChildren n.children = n := by
  cases n
  rfl

theorem addSubTree_nil (n : PNode) : n.addSubTree [] = n := by
  cases n
  rfl

theorem treeInv_mk (ancs : List PApi) (a : Option PApi) (c : List PNode)
    (st : List String) (p : Option PApi) (i : List String) :
    treeInv ancs (PNode.mk a c st p i) =
      ((match a with
        | none => true
        | some x => consumesOk (x :: ancs) x) &&
       childrenInv (a.toList ++ ancs) c) := by
  rfl

theorem childrenInv_iff (chain : List PApi) :
    ∀ l : List PNode, childrenInv chain l = true ↔ ∀ c ∈ l, treeInv chain c = true := by
  intro l
  induction l with
  | nil => simp [childrenInv]
  | cons c cs ih => simp [childrenInv, ih]

theorem childrenInv_append (chain : List PApi) (l1 l2 : List PNode) :
    childrenInv chain (l1 ++ l2) = (childrenInv chain l1 && childrenInv chain l2) := by
  induction l1 with
  | nil => simp [childrenInv]
  | cons c cs ih => simp [childrenInv, ih, Bool.and_assoc]

theorem consumesOk_cons {chain : List PApi} {api x : PApi}
    (h : consumesOk chain api = true) : consumesOk (x :: chain) api = true := by
  unfold consumesOk at *
  rw [List.all_eq_true] at *
  intro v hv
  have h2 := h v hv
  simp only [Bool.or_eq_true, List.any_eq_true, decide_eq_true_eq, List.any_cons] at h2 ⊢
  rcases h2 with ⟨a, ha, hp⟩ | hp
  · exact Or.inl (Or.inr ⟨a, ha, hp⟩)
  · exact Or.inr hp

theorem consumesOk_of_undef_nil {chain : List PApi} {api : PApi}
    (h : getUndefinedVars chain api = []) : consumesOk chain api = true := by
  unfold consumesOk
  rw [List.all_eq_true]
  intro v hv
  by_contra hg
  have hmem : v ∈ getUndefinedVars chain api := by
    unfold getUndefinedVars
    rw [List.mem_filter]
    refine ⟨hv, ?_⟩
    simp only [Bool.or_eq_true, List.any_eq_true, decide_eq_true_eq, not_or, not_exists,
      not_and] at hg
    simp only [Bool.and_eq_true, List.all_eq_true, decide_eq_true_eq]
    exact ⟨fun a ha => hg.1 a ha, hg.2⟩
  rw [h] at hmem
  exact absurd hmem (List.not_mem_nil v)

theorem addChild_treeInv (fuel : Nat) (corpus : Corpus) (ancs : List PApi)
    (self : PNode) (api : PApi) (out : PNode × List String)
    (h : addChild fuel corpus self api = .ok out)
    (hinv : treeInv ancs self = true)
    (hok : consumesOk (self.apiList ++ ancs) api = true) :
    treeInv ancs out.1 = true := by
  cases fuel with
  | zero => exact absurd h (by simp [addChild])
  | succ f =>
    simp only [addChild] at h
    split at h
    · cases h
      exact hinv
    · split at h
      · cases h
        exact hinv
      · split at h
        · -- varNew = none
          cases h
          cases self with
          | mk a c st p i =>
            simp only [PNode.withChildren, PNode.addSubTree, PNode.children]
            rw [treeInv_mk] at hinv
            rw [treeInv_mk, childrenInv_append]
            simp only [Bool.and_eq_true] at hinv ⊢
            refine ⟨hinv.1, hinv.2, ?_⟩
            simp only [childrenInv, Bool.and_true]
            rw [treeInv_mk]
            simp only [childrenInv, Bool.and_true]
            exact consumesOk_cons hok
        · -- varNew = some (g, d)
          split at h
          · simp at h
          · split at h
            · simp at h
            · split at h
              · simp at h
              · cases h
                cases self with
                | mk a c st p i =>
                  simp only [PNode.withChildren, PNode.addSubTree, PNode.children]
                  rw [treeInv_mk] at hinv
                  rw [treeInv_mk, childrenInv_append]
                  simp only [Bool.and_eq_true] at hinv ⊢
                  refine ⟨hinv.1, hinv.2, ?_⟩
                  simp only [childrenInv, Bool.and_true]
                  rw [treeInv_mk]
                  simp only [childrenInv, Bool.and_true]
                  exact consumesOk_cons hok

theorem treeInv_withChildren (ancs : List PApi) (n : PNode) (cs : List PNode)
    (h1 : treeInv ancs n = true) (h2 : childrenInv (n.apiList ++ ancs) cs = true) :
    treeInv ancs (n.withChildren cs) = true := by
  cases n with
  | mk a c st p i =>
    simp only [PNode.withChildren]
    rw [treeInv_mk] at h1 ⊢
    simp only [Bool.and_eq_true] at h1 ⊢
    exact ⟨h1.1, h2⟩

theorem childrenInv_of_treeInv {ancs : List PApi} {n : PNode}
    (h : treeInv ancs n = true) : childrenInv (n.apiList ++ ancs) n.children = true := by
  cases n with
  | mk a c st p i =>
    rw [treeInv_mk] at h
    simp only [Bool.and_eq_true] at h
    exact h.2

theorem insert_preserve (fuel : Nat) :
    (∀ corpus ancs self api out,
        insertApi fuel corpus ancs self api = .ok out →
        treeInv ancs self = true → treeInv ancs out.1 = true) ∧
    (∀ corpus chain undef api children out,
        insertChildren fuel corpus chain undef api children = .ok out →
        childrenInv chain children = true → childrenInv chain out.1 = true) ∧
    (∀ corpus ancs self ps out,
        insertProducers fuel corpus ancs self ps = .ok out →
        treeInv ancs self = true → treeInv ancs out.1 = true) := by
  induction fuel with
  | zero =>
    refine ⟨?_, ?_, ?_⟩
    · intro corpus ancs self api out h _
      exact absurd h (by simp [insertApi])
    · intro corpus chain undef api children out h _
      exact absurd h (by simp [insertChildren])
    · intro corpus ancs self ps out h _
      exact absurd h (by simp [insertProducers])
  | succ f ih =>
    obtain ⟨ihI, ihC, ihP⟩ := ih
    refine ⟨?_, ?_, ?_⟩
    · intro corpus ancs self api out h hinv
      simp only [insertApi] at h
      split at h
      · cases h
        exact hinv
      · split at h
        · cases h
          rw [treeInv_setInserting]
          exact hinv
        · split at h
          · cases h
            rw [treeInv_setInserting]
            exact hinv
          · split at h
            next hundef =>
              exact addChild_treeInv f corpus ancs _ api out h
                (by rw [treeInv_setInserting]; exact hinv)
                (consumesOk_of_undef_nil hundef)
            next varName undefRest hundef =>
              split at h
              next e heqC => simp at h
              next children' delta found heqC =>
                split at h
                next hfound =>
                  cases h
                  show treeInv ancs (((self.setInserting api.name).withChildren
                    children').addSubTree delta) = true
                  rw [treeInv_addSubTree]
                  exact treeInv_withChildren ancs _ children'
                    (by rw [treeInv_setInserting]; exact hinv)
                    (ihC _ _ _ _ _ _ heqC
                      (childrenInv_of_treeInv (by rw [treeInv_setInserting]; exact hinv)))
                next hfound =>
                  split at h
                  next hprod => simp at h
                  next p ps hprod =>
                    split at h
                    next e heqP => simp at h
                    next self3 delta2 heqP =>
                      split at h
                      next e heqI => simp at h
                      next self5 delta3 heqI =>
                        cases h
                        have hinv2 : treeInv ancs (((self.setInserting api.name).withChildren
                            children').addSubTree delta) = true := by
                          rw [treeInv_addSubTree]
                          exact treeInv_withChildren ancs _ children'
                            (by rw [treeInv_setInserting]; exact hinv)
                            (ihC _ _ _ _ _ _ heqC
                              (childrenInv_of_treeInv (by rw [treeInv_setInserting]; exact hinv)))
                        have hinv3 := ihP _ _ _ _ _ heqP hinv2
                        have hinv4 : treeInv ancs (self3.clearInserting api.name) = true := by
                          rw [treeInv_clearInserting]
                          exact hinv3
                        exact ihI _ _ _ _ (self5, delta3) heqI hinv4
    · intro corpus chain undef api children out h hch
      cases children with
      | nil =>
        simp only [insertChildren] at h
        cases h
        simp [childrenInv]
      | cons child rest =>
        simp only [insertChildren] at h
        split at h
        · split at h
          next e heq1 => simp at h
          next child' delta1 heq1 =>
            split at h
            next e heq2 => simp at h
            next rest' delta2 found2 heq2 =>
              cases h
              show childrenInv chain (child' :: rest') = true
              simp only [childrenInv, Bool.and_eq_true] at hch ⊢
              exact ⟨ihI _ _ _ _ _ heq1 hch.1, ihC _ _ _ _ _ _ heq2 hch.2⟩
        · split at h
          next e heq2 => simp at h
          next rest' delta2 found2 heq2 =>
            cases h
            show childrenInv chain (child :: rest') = true
            simp only [childrenInv, Bool.and_eq_true] at hch ⊢
            exact ⟨hch.1, ihC _ _ _ _ _ _ heq2 hch.2⟩
    · intro corpus ancs self ps out h hinv
      cases ps with
      | nil =>
        simp only [insertProducers] at h
        cases h
        exact hinv
      | cons p ps2 =>
        simp only [insertProducers] at h
        split at h
        next e heq1 => simp at h
        next selfA d1 heq1 =>
          split at h
          next e heq2 => simp at h
          next selfB d2 heq2 =>
            cases h
            exact ihP _ _ _ _ (selfB, d2) heq2 (ihI _ _ _ _ (selfA, d1) heq1 hinv)

theorem addChild_children_api (fuel : Nat) (corpus : Corpus) (self : PNode) (api : PApi)
    (out : PNode × List String) (h : addChild fuel corpus self api = .ok out) :
    out.1.api = self.api ∧
    (out.1.children.map PNode.api = self.children.map PNode.api ∨
     out.1.children.map PNode.api = self.children.map PNode.api ++ [some api]) := by
  cases fuel with
  | zero => exact absurd h (by simp [addChild])
  | succ f =>
    simp only [addChild] at h
    split at h
    · cases h
      exact ⟨rfl, Or.inl rfl⟩
    · split at h
      · cases h
        exact ⟨rfl, Or.inl rfl⟩
      · split at h
        · cases h
          cases self with
          | mk a c st p i =>
            refine ⟨rfl, Or.inr ?_⟩
            simp [PNode.withChildren, PNode.addSubTree, PNode.children, PNode.api]
        · split at h
          · simp at h
          · split at h
            · simp at h
            · split at h
              · simp at h
              · cases h
                cases self with
                | mk a c st p i =>
                  refine ⟨rfl, Or.inr ?_⟩
                  simp [PNode.withChildren, PNode.addSubTree, PNode.children, PNode.api]

theorem insert_no_append (fuel : Nat) :
    (∀ corpus ancs self x out,
        insertApi fuel corpus ancs self x = .ok out →
        out.1.api = self.api ∧
        ∀ api : PApi, getUndefinedVars (self.apiList ++ ancs) api ≠ [] →
          some api ∉ self.children.map PNode.api →
          some api ∉ out.1.children.map PNode.api) ∧
    (∀ corpus chain undef x children out,
        insertChildren fuel corpus chain undef x children = .ok out →
        out.1.map PNode.api = children.map PNode.api) ∧
    (∀ corpus ancs self ps out,
        insertProducers fuel corpus ancs self ps = .ok out →
        out.1.api = self.api ∧
        ∀ api : PApi, getUndefinedVars (self.apiList ++ ancs) api ≠ [] →
          some api ∉ self.children.map PNode.api →
          some api ∉ out.1.children.map PNode.api) := by
  induction fuel with
  | zero =>
    refine ⟨?_, ?_, ?_⟩
    · intro corpus ancs self x out h
      exact absurd h (by simp [insertApi])
    · intro corpus chain undef x children out h
      exact absurd h (by simp [insertChildren])
    · intro corpus ancs self ps out h
      exact absurd h (by simp [insertProducers])
  | succ f ih =>
    obtain ⟨ihI, ihC, ihP⟩ := ih
    refine ⟨?_, ?_, ?_⟩
    · intro corpus ancs self x out h
      simp only [insertApi] at h
      split at h
      · cases h
        exact ⟨rfl, fun api _ hnm => hnm⟩
      · split at h
        · cases h
          refine ⟨api_setInserting self x.name, ?_⟩
          intro api _ hnm
          show some api ∉ List.map PNode.api (self.setInserting x.name).children
          rw [children_setInserting]
          exact hnm
        · split at h
          · cases h
            refine ⟨api_setInserting self x.name, ?_⟩
            intro api _ hnm
            show some api ∉ List.map PNode.api (self.setInserting x.name).children
            rw [children_setInserting]
            exact hnm
          · split at h
            next hundef =>
              obtain ⟨hA, hC⟩ := addChild_children_api f corpus _ x out h
              refine ⟨by rw [hA, api_setInserting], ?_⟩
              intro api hund hnm
              have hx : ¬ x = api := fun hxe =>
                hund (by rw [apiList_setInserting] at hundef; exact hxe ▸ hundef)
              rcases hC with hC | hC
              · rw [hC, children_setInserting]
                exact hnm
              · rw [hC, children_setInserting]
                intro hmem
                rcases List.mem_append.mp hmem with hm | hm
                · exact hnm hm
                · rw [List.mem_singleton] at hm
                  exact hx (Option.some.inj hm).symm
            next varName undefRest hundef =>
              split at h
              next e heqC => simp at h
              next children' delta found heqC =>
                have hmapC2 : List.map PNode.api children' = List.map PNode.api self.children := by
                  have hm := ihC _ _ _ _ _ (children', delta, found) heqC
                  rw [children_setInserting] at hm
                  exact hm
                split at h
                next hfound =>
                  cases h
                  constructor
                  · show (((self.setInserting x.name).withChildren children').addSubTree delta).api = self.api
                    rw [api_addSubTree, api_withChildren, api_setInserting]
                  · intro api hund hnm
                    show some api ∉ List.map PNode.api
                      (((self.setInserting x.name).withChildren children').addSubTree delta).children
                    rw [children_addSubTree, children_withChildren, hmapC2]
                    exact hnm
                next hfound =>
                  split at h
                  next hprod => simp at h
                  next p ps hprod =>
                    split at h
                    next e heqP => simp at h
                    next self3 delta2 heqP =>
                      split at h
                      next e heqI => simp at h
                      next self5 delta3 heqI =>
                        cases h
                        obtain ⟨hPa, hPm⟩ := ihP _ _ _ _ (self3, delta2) heqP
                        obtain ⟨hIa, hIm⟩ := ihI _ _ _ _ (self5, delta3) heqI
                        have hself2api : (((self.setInserting x.name).withChildren
                            children').addSubTree delta).api = self.api := by
                          rw [api_addSubTree, api_withChildren, api_setInserting]
                        have h3api : self3.api = self.api := by
                          have hp2 : self3.api = (((self.setInserting x.name).withChildren
                              children').addSubTree delta).api := hPa
                          rw [hp2, hself2api]
                        have h5api : self5.api = (self3.clearInserting x.name).api := hIa
                        constructor
                        · show self5.api = self.api
                          rw [h5api, api_clearInserting, h3api]
                        · intro api hund hnm
                          have hund2 : getUndefinedVars ((((self.setInserting x.name).withChildren
                              children').addSubTree delta).apiList ++ ancs) api ≠ [] := by
                            unfold PNode.apiList
                            rw [hself2api]
                            exact hund
                          have hnm2 : some api ∉ List.map PNode.api
                              (((self.setInserting x.name).withChildren
                                children').addSubTree delta).children := by
                            rw [children_addSubTree, children_withChildren, hmapC2]
                            exact hnm
                          have hnm3 : some api ∉ List.map PNode.api self3.children :=
                            hPm api hund2 hnm2
                          have hund4 : getUndefinedVars
                              ((self3.clearInserting x.name).apiList ++ ancs) api ≠ [] := by
                            unfold PNode.apiList
                            rw [api_clearInserting, h3api]
                            exact hund
                          have hnm4 : some api ∉ List.map PNode.api
                              (self3.clearInserting x.name).children := by
                            rw [children_clearInserting]
                            exact hnm3
                          have hres : some api ∉ List.map PNode.api self5.children :=
                            hIm api hund4 hnm4
                          exact hres
    · intro corpus chain undef x children out h
      cases children with
      | nil =>
        simp only [insertChildren] at h
        cases h
        rfl
      | cons child rest =>
        simp only [insertChildren] at h
        split at h
        · split at h
          next e heq1 => simp at h
          next child' delta1 heq1 =>
            split at h
            next e heq2 => simp at h
            next rest' delta2 found2 heq2 =>
              cases h
              show List.map PNode.api (child' :: rest') = List.map PNode.api (child :: rest)
              have h1 : child'.api = child.api := (ihI _ _ _ _ (child', delta1) heq1).1
              have h2 : List.map PNode.api rest' = List.map PNode.api rest :=
                ihC _ _ _ _ _ (rest', delta2, found2) heq2
              simp [List.map_cons, h1, h2]
        · split at h
          next e heq2 => simp at h
          next rest' delta2 found2 heq2 =>
            cases h
            show List.map PNode.api (child :: rest') = List.map PNode.api (child :: rest)
            have h2 : List.map PNode.api rest' = List.map PNode.api rest :=
              ihC _ _ _ _ _ (rest', delta2, found2) heq2
            simp [List.map_cons, h2]
    · intro corpus ancs self ps out h
      cases ps with
      | nil =>
        simp only [insertProducers] at h
        cases h
        exact ⟨rfl, fun api _ hnm => hnm⟩
      | cons p ps2 =>
        simp only [insertProducers] at h
        split at h
        next e heq1 => simp at h
        next selfA d1 heq1 =>
          split at h
          next e heq2 => simp at h
          next selfB d2 heq2 =>
            cases h
            obtain ⟨hIa, hIm⟩ := ihI _ _ _ _ (selfA, d1) heq1
            obtain ⟨hPa, hPm⟩ := ihP _ _ _ _ (selfB, d2) heq2
            have hAapi : selfA.api = self.api := hIa
            have hBapi : selfB.api = selfA.api := hPa
            constructor
            · show selfB.api = self.api
              rw [hBapi, hAapi]
            · intro api hund hnm
              have hundA : getUndefinedVars (selfA.apiList ++ ancs) api ≠ [] := by
                unfold PNode.apiList
                rw [hAapi]
                exact hund
              have hnmA : some api ∉ List.map PNode.api selfA.children := hIm api hund hnm
              have hres : some api ∉ List.map PNode.api selfB.children := hPm api hundA hnmA
              exact hres

theorem compileTreeGo_treeInv (fuel : Nat) (corpus : Corpus) :
    ∀ apis root out, compileTree.compileTreeGo fuel corpus root apis = .ok out →
      treeInv [] root = true → treeInv [] out = true := by
  intro apis
  induction apis with
  | nil =>
    intro root out h hinv
    simp only [compileTree.compileTreeGo] at h
    cases h
    exact hinv
  | cons api rest ih =>
    intro root out h hinv
    simp only [compileTree.compileTreeGo] at h
    split at h
    next e heq => simp at h
    next root' d heq =>
      exact ih root' out h ((insert_preserve fuel).1 _ _ _ _ (root', d) heq hinv)

/-- C1: dependency completeness.  Every tree produced by a successful
compile satisfies `treeInv`: each node's API consumes only variables
produced by its own API or one of its ancestors' APIs, or pre-defined for
it.  And `insertApi` appends an API as a new direct child of a node only
when the undefined-variable set of the API at that node is empty: when the
set is non-empty, a successful insertion never makes the API a direct
child it was not already. -/
theorem compile_dependency_completeness :
    (∀ fuel corpus apis root, compileTree fuel corpus apis = .ok root →
       treeInv [] root = true) ∧
    (∀ fuel corpus ancs self api out,
       insertApi fuel corpus ancs self api = .ok out →
       getUndefinedVars (self.apiList ++ ancs) api ≠ [] →
       some api ∉ self.children.map PNode.api →
       some api ∉ out.1.children.map PNode.api) := by
  constructor
  · intro fuel corpus apis root h
    unfold compileTree at h
    split at h
    · cases h
      rfl
    · exact compileTreeGo_treeInv fuel corpus _ rootNode root h (by rfl)
  · intro fuel corpus ancs self api out h hund hnm
    exact ((insert_no_append fuel).1 _ _ _ _ _ h).2 api hund hnm

def useXW : PApi := PApi.mk "svc/useX-200" ["x"] [] [] none []
def makeXW : PApi := PApi.mk "svc/makeX-200" [] ["x"] [] none []
def corpusW : Corpus := Corpus.mk [makeXW, useXW] []
def treeW : PNode :=
  PNode.mk none
    [PNode.mk (some makeXW)
      [PNode.mk (some useXW) [] [] none []]
      ["x"] none ["svc/useX-200"]]
    ["x"] none ["svc/useX-200", "svc/makeX-200"]
def outW : PNode × List String := (treeW, ["x"])

/-- Witness for `compile_dependency_completeness`: compiling `useX` (which
consumes `x`) against a corpus holding `makeX` (the only producer of `x`)
succeeds, the resulting tree root→makeX→useX satisfies the invariant, and
the root-level insertion of `useX` — whose undefined-variable set at the
root is non-empty — adds no direct `useX` child to the root. -/
theorem compile_dependency_completeness_witness :
    compileTree 6 corpusW [useXW] = .ok treeW ∧ treeInv [] treeW = true ∧
    insertApi 6 corpusW [] rootNode useXW = .ok outW ∧
    getUndefinedVars (rootNode.apiList ++ []) useXW ≠ [] ∧
    some useXW ∉ rootNode.children.map PNode.api ∧
    some useXW ∉ outW.1.children.map PNode.api := by
  refine ⟨by rfl, ?_, by rfl, by decide, by decide, ?_⟩
  · exact compile_dependency_completeness.1 6 corpusW [useXW] treeW (by rfl)
  · exact compile_dependency_completeness.2 6 corpusW [] rootNode useXW outW
      (by rfl) (by decide) (by decide)

theorem insertChildren_none (corpus : Corpus) (chain : List PApi) (undef : List String)
    (api : PApi) :
    ∀ (fuel : Nat) (children : List PNode), children.length < fuel →
    (∀ c ∈ children, producesVar c undef = false) →
    insertChildren fuel corpus chain undef api children = .ok (children, [], false) := by
  intro fuel
  induction fuel with
  | zero =>
    intro children hlen _
    exact absurd hlen (Nat.not_lt_zero _)
  | succ f ih =>
    intro children hlen hnone
    cases children with
    | nil => simp [insertChildren]
    | cons c cs =>
      have hc := hnone c (List.mem_cons_self c cs)
      have hlen2 : cs.length < f := by
        simp only [List.length_cons] at hlen
        omega
      have hrec := ih cs hlen2 (fun x hx => hnone x (List.mem_cons_of_mem c hx))
      simp [insertChildren, hc, hrec]

/-- C6: producer seeding.  When inserting an API at a node finds a
non-empty undefined-variable set `v :: vs` and no child subtree of the
node produces any of those variables, the call reduces to the seeding
branch: every producer of `v` in the corpus is inserted at the node (in
corpus order), the API's re-entrancy flag is cleared, and the API is
re-inserted at the node; when the corpus holds no producer of `v`, the
call fails with the error naming `v`. -/
theorem insertApi_producer_seeding (fuel : Nat) (corpus : Corpus) (ancs : List PApi)
    (self : PNode) (api : PApi) (v : String) (vs : List String)
    (hni : api.name ∉ self.inserting)
    (hins : isInsertableApi corpus.referencedApis api.name = true)
    (hchain : api ∉ self.apiList ++ ancs)
    (hundef : getUndefinedVars (self.apiList ++ ancs) api = v :: vs)
    (hnochild : ∀ c ∈ self.children, producesVar c (v :: vs) = false)
    (hlen : self.children.length < fuel) :
    insertApi (fuel + 1) corpus ancs self api =
      match getApiProducers corpus v with
      | [] => .error ("There are no producers of the '" ++ v ++ "' variable")
      | p :: ps =>
        match insertProducers fuel corpus ancs (self.setInserting api.name) (p :: ps) with
        | .error e => .error e
        | .ok (self3, d2) =>
          match insertApi fuel corpus ancs (self3.clearInserting api.name) api with
          | .error e => .error e
          | .ok (self5, d3) => .ok (self5, d2 ++ d3) := by
  simp only [insertApi]
  rw [if_neg hni, if_neg (not_not_intro hins)]
  have hch2 : api ∉ (self.setInserting api.name).apiList ++ ancs := by
    rw [apiList_setInserting]
    exact hchain
  rw [if_neg hch2]
  have hu2 : getUndefinedVars ((self.setInserting api.name).apiList ++ ancs) api = v :: vs := by
    rw [apiList_setInserting]
    exact hundef
  rw [hu2]
  simp only []
  have hcnone : insertChildren fuel corpus ((self.setInserting api.name).apiList ++ ancs)
      (v :: vs) api (self.setInserting api.name).children =
      .ok ((self.setInserting api.name).children, [], false) := by
    refine insertChildren_none corpus _ _ api fuel _ ?_ ?_
    · rw [children_setInserting]
      exact hlen
    · rw [children_setInserting]
      exact hnochild
  rw [hcnone]
  simp only []
  rw [if_neg Bool.false_ne_true]
  rw [withChildren_self, addSubTree_nil]
  cases hgp : getApiProducers corpus v with
  | nil => rfl
  | cons p ps =>
    cases hip : insertProducers fuel corpus ancs (self.setInserting api.name) (p :: ps) with
    | error e => rfl
    | ok pr =>
      obtain ⟨self3, d2⟩ := pr
      cases hia : insertApi fuel corpus ancs (self3.clearInserting api.name) api with
      | error e => rfl
      | ok pr2 =>
        obtain ⟨self5, d3⟩ := pr2
        simp

/-- Witness for `insertApi_producer_seeding`: inserting `useX` at the
empty root, where `x` is undefined and the root has no children, takes the
producer-seeding branch; evaluating that branch on the `makeX`/`useX`
corpus yields the root→makeX→useX tree. -/
theorem insertApi_producer_seeding_witness :
    useXW.name ∉ rootNode.inserting ∧
    isInsertableApi corpusW.referencedApis useXW.name = true ∧
    useXW ∉ rootNode.apiList ++ [] ∧
    getUndefinedVars (rootNode.apiList ++ []) useXW = "x" :: [] ∧
    (∀ c ∈ rootNode.children, producesVar c ("x" :: []) = false) ∧
    rootNode.children.length < 3 ∧
    insertApi (3 + 1) corpusW [] rootNode useXW =
      (match getApiProducers corpusW "x" with
       | [] => .error ("There are no producers of the '" ++ "x" ++ "' variable")
       | p :: ps =>
         match insertProducers 3 corpusW [] (rootNode.setInserting useXW.name) (p :: ps) with
         | .error e => .error e
         | .ok (self3, d2) =>
           match insertApi 3 corpusW [] (self3.clearInserting useXW.name) useXW with
           | .error e => .error e
           | .ok (self5, d3) => .ok (self5, d2 ++ d3)) := by
  refine ⟨by decide, by decide, by decide, by decide, by decide, by decide, ?_⟩
  exact insertApi_producer_seeding 3 corpusW [] rootNode useXW "x" []
    (by decide) (by decide) (by decide) (by decide) (by decide) (by decide)

/-- Witness for `doRun_serialization`: two contexts on one queue; the
second starts only after the first completes, and the final state keeps
the resumed context queued — it popped nothing. -/
theorem doRun_serialization_witness :
    qExec ⟨[], [], []⟩
        ([] ++ QEv.arrive 0 :: ([] ++ QEv.arrive 1 :: [QEv.complete 0, QEv.complete 1])) =
      some ⟨[1], [0],
        [QAct.arrive 0, QAct.start 0, QAct.arrive 1, QAct.complete 0, QAct.start 1,
         QAct.complete 1]⟩ ∧
    [QAct.complete 0, QAct.start 1].Sublist
      [QAct.arrive 0, QAct.start 0, QAct.arrive 1, QAct.complete 0, QAct.start 1,
       QAct.complete 1] :=
  ⟨by decide,
   doRun_serialization.2.2 [] [] [QEv.complete 0, QEv.complete 1] 0 1
     ⟨[1], [0],
      [QAct.arrive 0, QAct.start 0, QAct.arrive 1, QAct.complete 0, QAct.start 1,
       QAct.complete 1]⟩
     (by decide) (by decide) (by decide)⟩

/-- Witness for `doRunWaterfall_stage_conditions`: a run whose children
stage fails still runs afterAll, onAfterRun and postRun, and reports the
children error. -/
theorem doRunWaterfall_stage_conditions_witness :
    ((doRunWaterfall ⟨false, none, none, none, none, none, some "childerr",
        none, none, true, none⟩).1.afterAll = true ↔
      ((doRunWaterfall ⟨false, none, none, none, none, none, some "childerr",
          none, none, true, none⟩).1.afterApi = true ∧ (none : Option String) = none)) ∧
    (doRunWaterfall ⟨false, none, none, none, none, none, some "childerr",
        none, none, true, none⟩).2 =
      wfFirstErr ⟨false, none, none, none, none, none, some "childerr", none, none, true, none⟩
        (doRunWaterfall ⟨false, none, none, none, none, none, some "childerr",
            none, none, true, none⟩).1 :=
  ⟨(doRunWaterfall_stage_conditions
      ⟨false, none, none, none, none, none, some "childerr", none, none, true, none⟩
      (doRunWaterfall ⟨false, none, none, none, none, none, some "childerr",
          none, none, true, none⟩).1
      (doRunWaterfall ⟨false, none, none, none, none, none, some "childerr",
          none, none, true, none⟩).2 rfl).1,
   (doRunWaterfall_stage_conditions
      ⟨false, none, none, none, none, none, some "childerr", none, none, true, none⟩
      (doRunWaterfall ⟨false, none, none, none, none, none, some "childerr",
          none, none, true, none⟩).1
      (doRunWaterfall ⟨false, none, none, none, none, none, some "childerr",
          none, none, true, none⟩).2 rfl).2.2.2.2⟩

end Hapi
